import Mathlib

/-
  Verification development for the NV_chess_engine_V2 chess engine
  (src/NV_chess_engine_V2.py and src/static_eval.py).

  The game-rules library (python-chess) is an external collaborator: positions,
  legal-move generation, push, and the terminal predicates are abstracted as a
  `Game` interface carrying the facts the engine relies on (captures remove a
  piece, checkmate positions have no legal moves, the side to move alternates,
  the static non-terminal evaluation is bounded away from the mate sentinels).
  All engine code is translated literally from the source on top of this
  interface; mutable engine state (killer table, history table, node counter,
  transposition table) is threaded explicitly, and every board.push/board.pop
  performed by the engine is recorded in an event trace.
-/

namespace NV

/-- Scores as the Python search uses them: `float('-inf')`, a finite integer
    number of centipawns, or `float('inf')`. -/
inductive EInt where
  | bot
  | fin (z : Int)
  | top
deriving DecidableEq

namespace EInt

/-- Ordering of extended integers, mirroring IEEE comparison of
    `-inf`, finite values and `inf` as Python uses them. -/
def le : EInt → EInt → Prop
  | bot, _ => True
  | _, top => True
  | fin a, fin b => a ≤ b
  | _, _ => False

instance decLe : ∀ a b : EInt, Decidable (le a b)
  | bot, b => isTrue (by cases b <;> trivial)
  | fin _, top => isTrue trivial
  | fin a, fin b => inferInstanceAs (Decidable (a ≤ b))
  | fin _, bot => isFalse (fun h => h)
  | top, top => isTrue trivial
  | top, fin _ => isFalse (fun h => h)
  | top, bot => isFalse (fun h => h)

instance : LinearOrder EInt where
  le := le
  le_refl a := by cases a <;> simp [le]
  le_trans a b c hab hbc := by
    cases a <;> cases b <;> cases c <;> simp_all [le] <;> omega
  le_antisymm a b hab hba := by
    cases a <;> cases b <;> simp_all [le] <;> omega
  le_total a b := by
    cases a <;> cases b <;> simp [le] <;> omega
  decidableLE := decLe

/-- Negation: `-(-inf) = inf` and conversely, as for Python floats. -/
def neg : EInt → EInt
  | bot => top
  | fin z => fin (-z)
  | top => bot

/-- Adding one: infinities absorb (`float('inf') + 1 == float('inf')`). -/
def succ : EInt → EInt
  | bot => bot
  | fin z => fin (z + 1)
  | top => top

/-- Subtracting one: infinities absorb. -/
def pred : EInt → EInt
  | bot => bot
  | fin z => fin (z - 1)
  | top => top

theorem le_def (a b : EInt) : a ≤ b ↔ le a b := Iff.rfl

@[simp] theorem bot_le (a : EInt) : bot ≤ a := by cases a <;> trivial

@[simp] theorem le_top (a : EInt) : a ≤ top := by cases a <;> trivial

@[simp] theorem fin_le_fin (a b : Int) : fin a ≤ fin b ↔ a ≤ b := Iff.rfl

@[simp] theorem fin_lt_fin (a b : Int) : fin a < fin b ↔ a < b := by
  constructor
  · intro h
    have h1 := le_of_lt h
    have h2 : ¬ fin b ≤ fin a := not_le_of_lt h
    simp only [fin_le_fin] at h1 h2
    omega
  · intro h
    exact lt_of_le_not_le (by simp [h.le]) (by simp; omega)

@[simp] theorem fin_lt_top (a : Int) : fin a < top := by
  exact lt_of_le_not_le (le_top _) (fun h => h)

@[simp] theorem bot_lt_fin (a : Int) : bot < fin a := by
  exact lt_of_le_not_le (bot_le _) (fun h => h)

@[simp] theorem bot_lt_top : (bot : EInt) < top := by
  exact lt_of_le_not_le (bot_le _) (fun h => h)

@[simp] theorem not_top_le_fin (a : Int) : ¬ (top : EInt) ≤ fin a := fun h => h

@[simp] theorem not_fin_le_bot (a : Int) : ¬ fin a ≤ bot := fun h => h

@[simp] theorem not_top_le_bot : ¬ (top : EInt) ≤ bot := fun h => h

theorem ne_bot_of_lt {a b : EInt} (h : a < b) : b ≠ bot := by
  intro hb; subst hb; exact absurd h (not_lt_of_le (bot_le a))

theorem ne_top_of_lt {a b : EInt} (h : a < b) : a ≠ top := by
  intro ha; subst ha; exact absurd h (not_lt_of_le (le_top b))

theorem exists_fin {a : EInt} (hb : a ≠ bot) (ht : a ≠ top) : ∃ z : Int, a = fin z := by
  cases a with
  | bot => exact absurd rfl hb
  | fin z => exact ⟨z, rfl⟩
  | top => exact absurd rfl ht

@[simp] theorem neg_bot : neg bot = top := rfl

@[simp] theorem neg_top : neg top = bot := rfl

@[simp] theorem neg_fin (z : Int) : neg (fin z) = fin (-z) := rfl

@[simp] theorem neg_neg (a : EInt) : neg (neg a) = a := by
  cases a <;> simp [neg]

@[simp] theorem neg_le_neg_iff (a b : EInt) : neg a ≤ neg b ↔ b ≤ a := by
  cases a <;> cases b <;> simp [neg, le_def, le] <;> omega

@[simp] theorem neg_lt_neg_iff (a b : EInt) : neg a < neg b ↔ b < a := by
  rw [lt_iff_le_not_le, lt_iff_le_not_le, neg_le_neg_iff, neg_le_neg_iff]

theorem neg_max (a b : EInt) : neg (max a b) = min (neg a) (neg b) := by
  rcases le_total a b with h | h
  · rw [max_eq_right h, min_eq_right (by simpa using h)]
  · rw [max_eq_left h, min_eq_left (by simpa using h)]

theorem neg_min (a b : EInt) : neg (min a b) = max (neg a) (neg b) := by
  rcases le_total a b with h | h
  · rw [min_eq_left h, max_eq_left (by simpa using h)]
  · rw [min_eq_right h, max_eq_right (by simpa using h)]

@[simp] theorem succ_fin (z : Int) : succ (fin z) = fin (z + 1) := rfl

theorem fin_lt_succ (z : Int) : fin z < succ (fin z) := by simp

theorem succ_le_of_lt {z : Int} {b : EInt} (h : fin z < b) : succ (fin z) ≤ b := by
  cases b with
  | bot => exact absurd rfl (ne_bot_of_lt h)
  | fin w => simp at h ⊢; omega
  | top => simp

@[simp] theorem max_bot_right (a : EInt) : max a bot = a := max_eq_left (bot_le a)

@[simp] theorem max_bot_left (a : EInt) : max bot a = a := max_eq_right (bot_le a)

@[simp] theorem min_top_right (a : EInt) : min a top = a := min_eq_left (le_top a)

@[simp] theorem min_top_left (a : EInt) : min top a = a := min_eq_right (le_top a)

@[simp] theorem fin_max (a b : Int) : fin (max a b) = max (fin a) (fin b) := by
  rcases le_total a b with h | h
  · rw [max_eq_right h, max_eq_right (by simpa using h)]
  · rw [max_eq_left h, max_eq_left (by simpa using h)]

@[simp] theorem fin_min (a b : Int) : fin (min a b) = min (fin a) (fin b) := by
  rcases le_total a b with h | h
  · rw [min_eq_left h, min_eq_left (by simpa using h)]
  · rw [min_eq_right h, min_eq_right (by simpa using h)]

/-- The running-alpha update of a fail-hard window absorbs the old alpha. -/
theorem clamp_absorb {a b : EInt} (x : EInt) (h : a ≤ b) :
    max a (min b (max a x)) = max a (min b x) := by
  rw [min_max_distrib_left, min_eq_right h, ← max_assoc, max_self]

theorem clamp_le_right {a b : EInt} (x : EInt) (h : a ≤ b) :
    max a (min b x) ≤ b :=
  max_le h (min_le_left b x)

theorem le_clamp_left (a b x : EInt) : a ≤ max a (min b x) := le_max_left _ _

theorem clamp_eq_right_iff {a b : EInt} (x : EInt) (h : a < b) :
    max a (min b x) = b ↔ b ≤ x := by
  constructor
  · intro he
    by_contra hx
    push_neg at hx
    have h1 : min b x = x := min_eq_right hx.le
    rw [h1] at he
    rcases le_total a x with h2 | h2
    · rw [max_eq_right h2] at he
      exact absurd (he ▸ hx) (lt_irrefl b)
    · rw [max_eq_left h2] at he
      exact absurd (he ▸ h) (lt_irrefl b)
  · intro hx
    rw [min_eq_left hx, max_eq_right h.le]

/-- Merging a new clamped score into the running clamp. -/
theorem clamp_shift {a b : EInt} (x y : EInt) (h : a ≤ b) :
    max (max a (min b x)) (min b y) = max a (min b (max x y)) := by
  rw [min_max_distrib_left, ← max_assoc]

end EInt

/-- A move as the engine consumes it: source square, destination square,
    optional promotion piece kind (square/kind numbering as in python-chess). -/
structure MoveS where
  fromSq : Nat
  toSq : Nat
  promo : Option Nat
deriving DecidableEq

/-- One board mutation performed by the engine: `board.push(move)` or `board.pop()`. -/
inductive Ev where
  | push (m : MoveS)
  | pop
deriving DecidableEq

/-- The engine instance's mutable search state: `killer_moves` (a list of
    move-or-None entries, initially `[None, None]`), `history_table` (a dict
    from (from_square, to_square) to an accumulated integer), `nodes_searched`,
    and the declared-but-inert `transposition_table`. -/
structure Tables where
  killers : List (Option MoveS)
  history : List ((Nat × Nat) × Int)
  nodes : Nat
  transposition : List (String × Int)
deriving DecidableEq

/-- The initial tables of a freshly constructed engine. -/
def initTables : Tables :=
  { killers := [none, none], history := [], nodes := 0, transposition := [] }

/-- Python `dict.get(k, 0)` on the association-list model of a dict. -/
def dictGet (l : List ((Nat × Nat) × Int)) (k : Nat × Nat) : Int :=
  match l with
  | [] => 0
  | (k', v) :: t => if k' = k then v else dictGet t k

/-- Python `k in dict`. -/
def dictMem (l : List ((Nat × Nat) × Int)) (k : Nat × Nat) : Bool :=
  match l with
  | [] => false
  | (k', _) :: t => if k' = k then true else dictMem t k

/-- Python `dict[k] = v`: replace the binding if present, else append one. -/
def dictSet (l : List ((Nat × Nat) × Int)) (k : Nat × Nat) (v : Int) :
    List ((Nat × Nat) × Int) :=
  match l with
  | [] => [(k, v)]
  | (k', v') :: t => if k' = k then (k, v) :: t else (k', v') :: dictSet t k v

/-- The external game-rules interface (python-chess), together with the facts
    about chess the engine's correctness rests on: a capture strictly decreases
    the number of pieces on the board (`rank`), a checkmated position has no
    legal moves, making a legal move flips the side to move, and the
    non-terminal static evaluation is strictly smaller in magnitude than the
    checkmate sentinel 99999. -/
structure Game where
  Pos : Type
  legal : Pos → List MoveS
  push : Pos → MoveS → Pos
  isCheckmate : Pos → Bool
  isStalemate : Pos → Bool
  isInsufficient : Pos → Bool
  isCapture : Pos → MoveS → Bool
  pieceAt : Pos → Nat → Option (Bool × Nat)
  turn : Pos → Bool
  rawEval : Pos → Int
  rank : Pos → Nat
  rank_capture : ∀ p m, isCapture p m = true → rank (push p m) < rank p
  mate_no_legal : ∀ p, isCheckmate p = true → legal p = []
  turn_push : ∀ p m, m ∈ legal p → turn (push p m) = !turn p
  rawEval_bound : ∀ p, -99999 < rawEval p ∧ rawEval p < 99999

/-- The piece-value dictionary `{PAWN:100, KNIGHT:320, BISHOP:330, ROOK:500,
    QUEEN:900, KING:0}` read with `.get(piece_type, 0)`; piece kinds are
    numbered 1..6 as in python-chess. -/
def pieceValue (t : Nat) : Int :=
  if t = 1 then 100
  else if t = 2 then 320
  else if t = 3 then 330
  else if t = 4 then 500
  else if t = 5 then 900
  else 0

/-- Python truthiness of an optional small integer (`None` and `0` are falsy):
    used for `move.promotion` and for king squares. -/
def optTruthy (o : Option Nat) : Bool :=
  match o with
  | none => false
  | some n => n != 0

/-- The `move_score` closure inside `_order_moves`: MVV-LVA capture bonus,
    promotion bonus, killer bonus, history bonus (floor-divided by 10 as
    Python's `//`), and center-square bonus (E4=28, E5=36, D4=27, D5=35). -/
def moveScore (G : Game) (p : G.Pos) (T : Tables) (m : MoveS) : Int :=
  let s1 : Int :=
    if G.isCapture p m then
      match G.pieceAt p m.toSq with
      | some captured =>
          (10000 + pieceValue captured.2) -
            (match G.pieceAt p m.fromSq with
             | some attacker => pieceValue attacker.2
             | none => 0)
      | none => 0
    else 0
  let s2 : Int := if optTruthy m.promo then 8000 else 0
  let s3 : Int := if some m ∈ T.killers then 3000 else 0
  let s4 : Int :=
    if dictMem T.history (m.fromSq, m.toSq) then
      Int.fdiv (dictGet T.history (m.fromSq, m.toSq)) 10
    else 0
  let s5 : Int :=
    if m.toSq = 28 ∨ m.toSq = 36 ∨ m.toSq = 27 ∨ m.toSq = 35 then 10 else 0
  s1 + s2 + s3 + s4 + s5

/-- Stable insertion into a descending-sorted list: an element is placed before
    the first strictly smaller key, so that among equal keys the original
    earlier element stays first, matching Python's stable `sorted`. -/
def insertByDesc (key : MoveS → Int) (m : MoveS) : List MoveS → List MoveS
  | [] => [m]
  | x :: xs => if key x ≤ key m then m :: x :: xs else x :: insertByDesc key m xs

/-- Stable sort by descending key: `sorted(moves, key=move_score, reverse=True)`. -/
def sortByDesc (key : MoveS → Int) : List MoveS → List MoveS
  | [] => []
  | x :: xs => insertByDesc key x (sortByDesc key xs)

/-- `NV_chess_engine_V2._order_moves` (the `is_maximizing` parameter is unused
    in the source as well). -/
def orderMoves (G : Game) (p : G.Pos) (T : Tables) (moves : List MoveS)
    (isMaximizing : Bool) : List MoveS :=
  sortByDesc (moveScore G p T) moves

/-- `static_eval.evaluate_board` as the search layer sees it: the terminal
    branches (checkmate sentinel by side to move, stalemate/insufficient 0)
    are translated from static_eval.py; the non-terminal five-term sum is the
    interface's `rawEval`. -/
def sEval (G : Game) (p : G.Pos) : Int :=
  if G.isCheckmate p then (if G.turn p then -99999 else 99999)
  else if G.isStalemate p || G.isInsufficient p then 0
  else G.rawEval p

/-- `NV_chess_engine_V2.evaluate_board()` with its default
    `player_color=chess.BLACK`, which negates the White-perspective static
    score. Every call inside the search uses this default. -/
def engineEval (G : Game) (p : G.Pos) : Int := - sEval G p

/-- `nodes_searched += 1`. -/
def incNodes (T : Tables) : Tables := { T with nodes := T.nodes + 1 }

/-- `NV_chess_engine_V2._update_killer`. -/
def updateKiller (T : Tables) (m : MoveS) : Tables :=
  if some m ∈ T.killers then T
  else
    let l := some m :: T.killers
    { T with killers := if 2 < l.length then l.dropLast else l }

/-- `NV_chess_engine_V2._update_history`: add depth squared to the entry. -/
def updateHistory (T : Tables) (m : MoveS) (depth : Nat) : Tables :=
  let key := (m.fromSq, m.toSq)
  let bonus : Int := (depth : Int) * (depth : Int)
  { T with history := dictSet T.history key (dictGet T.history key + bonus) }

/-- Result of one search call: the returned score, the engine tables after the
    call, and the trace of board.push/board.pop operations it performed. -/
structure SR where
  val : EInt
  tables : Tables
  trace : List Ev
deriving DecidableEq

/-- The losing-capture skip in `_quiescence`: skip when both the captured and
    the attacking piece are present and the captured piece's value is strictly
    less than the attacker's. -/
def skipCapture (G : Game) (p : G.Pos) (m : MoveS) : Bool :=
  match G.pieceAt p m.toSq, G.pieceAt p m.fromSq with
  | some captured, some attacker =>
      decide (pieceValue captured.2 < pieceValue attacker.2)
  | _, _ => false

/-- The capture loop of `_quiescence`, iterating over the legal moves:
    non-captures and losing captures are skipped; otherwise push, recurse with
    the negated swapped window, negate, pop, raise alpha, and return beta on
    cutoff. `rec` is the quiescence call at one less fuel. -/
def qloopF (G : Game) (rec : G.Pos → EInt → EInt → Tables → SR) (p : G.Pos) :
    List MoveS → EInt → EInt → Tables → SR
  | [], alpha, _beta, T => ⟨alpha, T, []⟩
  | m :: ms, alpha, beta, T =>
    if G.isCapture p m = false then qloopF G rec p ms alpha beta T
    else if skipCapture G p m then qloopF G rec p ms alpha beta T
    else
      let r := rec (G.push p m) (EInt.neg beta) (EInt.neg alpha) T
      let score := EInt.neg r.val
      let alpha1 := max alpha score
      let tr1 := Ev.push m :: r.trace ++ [Ev.pop]
      if beta ≤ alpha1 then ⟨beta, r.tables, tr1⟩
      else
        let rest := qloopF G rec p ms alpha1 beta r.tables
        ⟨rest.val, rest.tables, tr1 ++ rest.trace⟩

/-- `NV_chess_engine_V2._quiescence`, indexed by fuel. The fuel is a proof
    device only: `quiescence` below always supplies more fuel than `G.rank`
    of the position, and the fuel-exhaustion branch is proved unreachable. -/
def qF (G : Game) : Nat → G.Pos → EInt → EInt → Tables → SR
  | 0, _, alpha, _, T => ⟨alpha, T, []⟩
  | n + 1, p, alpha, beta, T =>
    let T1 := incNodes T
    let stand := EInt.fin (engineEval G p)
    if beta ≤ stand then ⟨beta, T1, []⟩
    else qloopF G (qF G n) p (G.legal p) (max alpha stand) beta T1

/-- `NV_chess_engine_V2._quiescence`. -/
def quiescence (G : Game) (p : G.Pos) (alpha beta : EInt) (T : Tables) : SR :=
  qF G (G.rank p + 1) p alpha beta T

/-- The maximizing-player loop of `minimax`: PVS full window on the first move,
    null window `(alpha, alpha+1)` afterwards with a full re-search when the
    probe lands strictly inside `(alpha, beta)`; killer/history update and
    break on cutoff. `rec` is the minimax call at one less depth with
    `is_maximizing_player=False`. -/
def maxLoop (G : Game) (rec : G.Pos → EInt → EInt → Tables → SR)
    (dNode : Nat) (p : G.Pos) (beta : EInt) :
    List MoveS → Bool → EInt → EInt → Tables → SR
  | [], _, maxEval, _alpha, T => ⟨maxEval, T, []⟩
  | m :: ms, isFirst, maxEval, alpha, T =>
    let r :=
      if isFirst then rec (G.push p m) alpha beta T
      else
        let r0 := rec (G.push p m) alpha (EInt.succ alpha) T
        if alpha < r0.val ∧ r0.val < beta then
          let r1 := rec (G.push p m) alpha beta r0.tables
          ⟨r1.val, r1.tables, r0.trace ++ r1.trace⟩
        else r0
    let maxEval1 := max maxEval r.val
    let alpha1 := max alpha r.val
    let tr1 := Ev.push m :: r.trace ++ [Ev.pop]
    if beta ≤ alpha1 then
      ⟨maxEval1, updateHistory (updateKiller r.tables m) m dNode, tr1⟩
    else
      let rest := maxLoop G rec dNode p beta ms false maxEval1 alpha1 r.tables
      ⟨rest.val, rest.tables, tr1 ++ rest.trace⟩

/-- The minimizing-player loop of `minimax`: PVS null window `(beta-1, beta)`,
    re-search on a probe strictly inside `(alpha, beta)`; killer/history update
    and break on cutoff. -/
def minLoop (G : Game) (rec : G.Pos → EInt → EInt → Tables → SR)
    (dNode : Nat) (p : G.Pos) (alpha : EInt) :
    List MoveS → Bool → EInt → EInt → Tables → SR
  | [], _, minEval, _beta, T => ⟨minEval, T, []⟩
  | m :: ms, isFirst, minEval, beta, T =>
    let r :=
      if isFirst then rec (G.push p m) alpha beta T
      else
        let r0 := rec (G.push p m) (EInt.pred beta) beta T
        if alpha < r0.val ∧ r0.val < beta then
          let r1 := rec (G.push p m) alpha beta r0.tables
          ⟨r1.val, r1.tables, r0.trace ++ r1.trace⟩
        else r0
    let minEval1 := min minEval r.val
    let beta1 := min beta r.val
    let tr1 := Ev.push m :: r.trace ++ [Ev.pop]
    if beta1 ≤ alpha then
      ⟨minEval1, updateHistory (updateKiller r.tables m) m dNode, tr1⟩
    else
      let rest := minLoop G rec dNode p alpha ms false minEval1 beta1 r.tables
      ⟨rest.val, rest.tables, tr1 ++ rest.trace⟩

/-- `NV_chess_engine_V2.minimax`: node counter, quiescence at depth 0,
    checkmate/stalemate/insufficient-material sentinels, ordered move
    generation, defensive static-evaluation fallback on an empty move list,
    then the maximizing or minimizing PVS loop. -/
def minimax (G : Game) : Nat → G.Pos → Bool → EInt → EInt → Tables → SR
  | 0, p, _isMax, alpha, beta, T => quiescence G p alpha beta (incNodes T)
  | d + 1, p, isMax, alpha, beta, T =>
    let T1 := incNodes T
    if G.isCheckmate p then
      ⟨if isMax then EInt.fin (-99999) else EInt.fin 99999, T1, []⟩
    else if G.isStalemate p || G.isInsufficient p then ⟨EInt.fin 0, T1, []⟩
    else
      let moves := orderMoves G p T1 (G.legal p) isMax
      if moves.isEmpty then ⟨EInt.fin (engineEval G p), T1, []⟩
      else if isMax then
        maxLoop G (fun q a b T' => minimax G d q false a b T') (d + 1) p beta
          moves true EInt.bot alpha T1
      else
        minLoop G (fun q a b T' => minimax G d q true a b T') (d + 1) p alpha
          moves true EInt.top beta T1

/-- Result of `_search_move`: the chosen move, the final root alpha and beta
    bounds, the tables, and the push/pop trace. -/
structure RootR where
  move : Option MoveS
  alphaOut : EInt
  betaOut : EInt
  tables : Tables
  trace : List Ev
deriving DecidableEq

/-- The root loop of `_search_move` for `player_color == chess.BLACK`:
    full-window child searches with a manually narrowed alpha, recording the
    move whenever the score strictly improves alpha. -/
def rootMaxLoop (G : Game) (d : Nat) (p : G.Pos) :
    List MoveS → Option MoveS → EInt → EInt → Tables →
      Option MoveS × EInt × Tables × List Ev
  | [], best, alpha, _beta, T => (best, alpha, T, [])
  | m :: ms, best, alpha, beta, T =>
    let r := minimax G d (G.push p m) false alpha beta T
    let tr1 := Ev.push m :: r.trace ++ [Ev.pop]
    let best1 := if alpha < r.val then some m else best
    let alpha1 := if alpha < r.val then r.val else alpha
    let rest := rootMaxLoop G d p ms best1 alpha1 beta r.tables
    (rest.1, rest.2.1, rest.2.2.1, tr1 ++ rest.2.2.2)

/-- The root loop of `_search_move` for White: symmetric, narrowing beta. -/
def rootMinLoop (G : Game) (d : Nat) (p : G.Pos) :
    List MoveS → Option MoveS → EInt → EInt → Tables →
      Option MoveS × EInt × Tables × List Ev
  | [], best, _alpha, beta, T => (best, beta, T, [])
  | m :: ms, best, alpha, beta, T =>
    let r := minimax G d (G.push p m) true alpha beta T
    let tr1 := Ev.push m :: r.trace ++ [Ev.pop]
    let best1 := if r.val < beta then some m else best
    let beta1 := if r.val < beta then r.val else beta
    let rest := rootMinLoop G d p ms best1 alpha beta1 r.tables
    (rest.1, rest.2.1, rest.2.2.1, tr1 ++ rest.2.2.2)

/-- `NV_chess_engine_V2._search_move`: order the root moves, run the root
    loop, and fall back to the first legal move (or none) when no move
    strictly improved the bound. -/
def searchMove (G : Game) (d : Nat) (playerBlack : Bool) (p : G.Pos)
    (T : Tables) : RootR :=
  if playerBlack then
    let moves := orderMoves G p T (G.legal p) true
    let r := rootMaxLoop G (d - 1) p moves none EInt.bot EInt.top T
    let best :=
      match r.1 with
      | some m => some m
      | none => (G.legal p).head?
    ⟨best, r.2.1, EInt.top, r.2.2.1, r.2.2.2⟩
  else
    let moves := orderMoves G p T (G.legal p) false
    let r := rootMinLoop G (d - 1) p moves none EInt.bot EInt.top T
    let best :=
      match r.1 with
      | some m => some m
      | none => (G.legal p).head?
    ⟨best, EInt.bot, r.2.1, r.2.2.1, r.2.2.2⟩

/-- The iterative-deepening loop of `get_best_move`, with the per-depth search
    abstracted as a step that can fail (the source wraps `_search_move` in
    `try/except` and breaks on any exception, keeping the last completed
    iteration's move). -/
def idGo (step : Nat → Tables → Except Unit (Option MoveS × Tables × List Ev)) :
    Nat → Nat → Option MoveS → Tables → List Ev →
      Option MoveS × Tables × List Ev
  | _cur, 0, best, T, acc => (best, T, acc)
  | cur, n + 1, best, T, acc =>
    match step cur T with
    | Except.ok r => idGo step (cur + 1) n r.1 r.2.1 (acc ++ r.2.2)
    | Except.error _ => (best, T, acc)

/-- `NV_chess_engine_V2.get_best_move`: clear the transposition table, then
    either iterative deepening over depths 1..depth or a single search. The
    concrete embedded `_search_move` is total, so its step never fails. -/
def getBestMove (G : Game) (p : G.Pos) (depth : Nat) (playerBlack : Bool)
    (iterative : Bool) (T : Tables) : Option MoveS × Tables × List Ev :=
  let T0 := { T with transposition := [] }
  if iterative then
    idGo
      (fun d T' =>
        Except.ok
          (let r := searchMove G d playerBlack p T'
           (r.move, r.tables, r.trace)))
      1 depth none T0 []
  else
    let r := searchMove G depth playerBlack p T0
    (r.move, r.tables, r.trace)

/-- The `ChessEngine.make_engine_move` wrapper's reset of the per-search state
    before asking for a move: killer table back to `[None, None]`, history
    cleared, node counter zeroed, transposition table cleared, then
    `get_best_move(depth, chess.BLACK, iterative_deepening=True)`. -/
def makeEngineMoveSearch (G : Game) (p : G.Pos) (depth : Nat) (_T : Tables) :
    Option MoveS × Tables × List Ev :=
  getBestMove G p depth true true initTables

/- Spec-side reference definitions: the unpruned full-width values of the same
   search tree, used to state the pruning-equivalence claim. -/

/-- The moves the quiescence loop actually recurses through: legal captures
    that are not skipped by the losing-capture filter. -/
def qCands (G : Game) (p : G.Pos) : List MoveS :=
  (G.legal p).filter (fun m => G.isCapture p m && !skipCapture G p m)

/-- Window-free quiescence value (fuel-indexed): the maximum of the stand-pat
    evaluation and the negations of the recursive values of the searched
    captures. This is the spec's "same evaluation at the leaves". -/
def tQF (G : Game) : Nat → G.Pos → Int
  | 0, _ => 0
  | n + 1, p =>
    (qCands G p).foldr (fun m acc => max (-(tQF G n (G.push p m))) acc)
      (engineEval G p)

/-- Window-free quiescence value. -/
def trueQ (G : Game) (p : G.Pos) : Int := tQF G (G.rank p + 1) p

/-- Unpruned full-width minimax value of the same tree: same depth, same
    terminal sentinels, same defensive fallback, same quiescence leaves, but
    no windows, no pruning and no move ordering. -/
def V (G : Game) : Nat → G.Pos → Bool → Int
  | 0, p, _ => trueQ G p
  | d + 1, p, isMax =>
    if G.isCheckmate p then (if isMax then -99999 else 99999)
    else if G.isStalemate p || G.isInsufficient p then 0
    else
      match G.legal p with
      | [] => engineEval G p
      | m :: ms =>
        if isMax then
          ms.foldl (fun acc m' => max acc (V G d (G.push p m') false))
            (V G d (G.push p m) false)
        else
          ms.foldl (fun acc m' => min acc (V G d (G.push p m') true))
            (V G d (G.push p m) true)

/-- The root loop of an unpruned full-width search for Black: same ordered
    move list, but each child is scored by its full-width value, recording the
    first strict improvement. -/
def fullRootMax (G : Game) (d : Nat) (p : G.Pos) :
    List MoveS → Option MoveS → EInt → Option MoveS × EInt
  | [], best, alpha => (best, alpha)
  | m :: ms, best, alpha =>
    let v := EInt.fin (V G d (G.push p m) false)
    if alpha < v then fullRootMax G d p ms (some m) v
    else fullRootMax G d p ms best alpha

/-- The root loop of an unpruned full-width search for White. -/
def fullRootMin (G : Game) (d : Nat) (p : G.Pos) :
    List MoveS → Option MoveS → EInt → Option MoveS × EInt
  | [], best, beta => (best, beta)
  | m :: ms, best, beta =>
    let v := EInt.fin (V G d (G.push p m) true)
    if v < beta then fullRootMin G d p ms (some m) v
    else fullRootMin G d p ms best beta

/-- `_search_move` with the pruned recursive search replaced by the unpruned
    full-width value of each child, over the same ordered root move list. -/
def fullSearchMove (G : Game) (d : Nat) (playerBlack : Bool) (p : G.Pos)
    (T : Tables) : Option MoveS × EInt × EInt :=
  if playerBlack then
    let moves := orderMoves G p T (G.legal p) true
    let r := fullRootMax G (d - 1) p moves none EInt.bot
    ((match r.1 with
      | some m => some m
      | none => (G.legal p).head?), r.2, EInt.top)
  else
    let moves := orderMoves G p T (G.legal p) false
    let r := fullRootMin G (d - 1) p moves none EInt.top
    ((match r.1 with
      | some m => some m
      | none => (G.legal p).head?), EInt.bot, r.2)

/- Trace theory: a push/pop trace is balanced when it is a Dyck word of
   matched push/pop pairs; replaying a balanced trace on the board machine
   (the python-chess move stack) restores the initial board and stack. -/

/-- Replaying a trace against the board machine: `push` applies the move and
    saves the current board on the stack, `pop` restores the saved board. -/
def runB (G : Game) : G.Pos → List G.Pos → List Ev → G.Pos × List G.Pos
  | b, stk, [] => (b, stk)
  | b, stk, Ev.push m :: tr => runB G (G.push b m) (b :: stk) tr
  | b, stk, Ev.pop :: tr =>
    match stk with
    | s :: rest => runB G s rest tr
    | [] => runB G b [] tr

/-- Balanced traces: every push is matched by exactly one pop, properly
    nested. -/
inductive Bal : List Ev → Prop
  | nil : Bal []
  | node (m : MoveS) {t r : List Ev} : Bal t → Bal r →
      Bal (Ev.push m :: (t ++ Ev.pop :: r))

/-- Counting helper: the number of pushes in a trace. -/
def countPush (tr : List Ev) : Nat :=
  tr.countP (fun e => match e with | Ev.push _ => true | Ev.pop => false)

/-- Counting helper: the number of pops in a trace. -/
def countPop (tr : List Ev) : Nat :=
  tr.countP (fun e => match e with | Ev.push _ => false | Ev.pop => true)

theorem runB_append (G : Game) (t u : List Ev) :
    ∀ b stk, runB G b stk (t ++ u) =
      runB G (runB G b stk t).1 (runB G b stk t).2 u := by
  induction t with
  | nil => intro b stk; simp [runB]
  | cons e t ih =>
    intro b stk
    cases e with
    | push m => simpa [runB] using ih (G.push b m) (b :: stk)
    | pop =>
      cases stk with
      | nil => simpa [runB] using ih b []
      | cons s rest => simpa [runB] using ih s rest

/-- A balanced trace restores the board machine exactly. -/
theorem Bal.runB_eq (G : Game) {tr : List Ev} (h : Bal tr) :
    ∀ b stk, runB G b stk tr = (b, stk) := by
  induction h with
  | nil => intro b stk; rfl
  | @node m t r ht hr iht ihr =>
    intro b stk
    show runB G b stk (Ev.push m :: (t ++ Ev.pop :: r)) = (b, stk)
    have h1 : runB G b stk (Ev.push m :: (t ++ Ev.pop :: r)) =
        runB G (G.push b m) (b :: stk) (t ++ Ev.pop :: r) := rfl
    rw [h1, runB_append, iht (G.push b m) (b :: stk)]
    simpa [runB] using ihr b stk

/-- Balanced traces are closed under concatenation. -/
theorem Bal.append {t u : List Ev} (ht : Bal t) (hu : Bal u) : Bal (t ++ u) := by
  induction ht with
  | nil => simpa using hu
  | @node m t1 r1 h1 h2 ih1 ih2 =>
    have e : (Ev.push m :: (t1 ++ Ev.pop :: r1)) ++ u =
        Ev.push m :: (t1 ++ Ev.pop :: (r1 ++ u)) := by simp
    rw [e]
    exact Bal.node m h1 ih2

/-- A balanced trace has exactly as many pushes as pops. -/
theorem Bal.countPush_eq_countPop {tr : List Ev} (h : Bal tr) :
    countPush tr = countPop tr := by
  induction h with
  | nil => rfl
  | @node m t1 r1 h1 h2 ih1 ih2 =>
    simp [countPush, countPop, List.countP_cons, List.countP_append] at ih1 ih2 ⊢
    omega

/-- A single matched push/pop pair around a balanced inner trace is balanced. -/
theorem Bal.wrap (m : MoveS) {t : List Ev} (h : Bal t) :
    Bal (Ev.push m :: t ++ [Ev.pop]) := by
  have e : Ev.push m :: t ++ [Ev.pop] = Ev.push m :: (t ++ Ev.pop :: []) := by simp
  rw [e]
  exact Bal.node m h Bal.nil

theorem qloopF_trace_bal (G : Game) (rec : G.Pos → EInt → EInt → Tables → SR)
    (hrec : ∀ q a b T', Bal (rec q a b T').trace) (p : G.Pos) :
    ∀ ms alpha beta T, Bal (qloopF G rec p ms alpha beta T).trace := by
  intro ms
  induction ms with
  | nil => intro alpha beta T; exact Bal.nil
  | cons m ms ih =>
    intro alpha beta T
    show Bal (qloopF G rec p (m :: ms) alpha beta T).trace
    rw [qloopF]
    split
    · exact ih alpha beta T
    · split
      · exact ih alpha beta T
      · dsimp only
        split
        · exact Bal.wrap m (hrec _ _ _ _)
        · exact (Bal.wrap m (hrec _ _ _ _)).append (ih _ _ _)

theorem qF_trace_bal (G : Game) :
    ∀ n p alpha beta T, Bal (qF G n p alpha beta T).trace := by
  intro n
  induction n with
  | zero => intro p alpha beta T; exact Bal.nil
  | succ n ih =>
    intro p alpha beta T
    rw [qF]
    split
    · exact Bal.nil
    · exact qloopF_trace_bal G (qF G n) (fun q a b T' => ih q a b T') p _ _ _ _

theorem quiescence_trace_bal (G : Game) (p : G.Pos) (alpha beta : EInt)
    (T : Tables) : Bal (quiescence G p alpha beta T).trace :=
  qF_trace_bal G _ p alpha beta T

theorem maxLoop_trace_bal (G : Game) (rec : G.Pos → EInt → EInt → Tables → SR)
    (hrec : ∀ q a b T', Bal (rec q a b T').trace) (dNode : Nat) (p : G.Pos)
    (beta : EInt) :
    ∀ ms isFirst maxEval alpha T,
      Bal (maxLoop G rec dNode p beta ms isFirst maxEval alpha T).trace := by
  intro ms
  induction ms with
  | nil => intro isFirst maxEval alpha T; exact Bal.nil
  | cons m ms ih =>
    intro isFirst maxEval alpha T
    rw [maxLoop]
    split
    · split
      · exact Bal.wrap m (hrec _ _ _ _)
      · exact (Bal.wrap m (hrec _ _ _ _)).append (ih _ _ _ _)
    · dsimp only
      split <;> split <;>
        first
        | exact Bal.wrap m ((hrec _ _ _ _).append (hrec _ _ _ _))
        | exact (Bal.wrap m ((hrec _ _ _ _).append (hrec _ _ _ _))).append (ih _ _ _ _)
        | exact Bal.wrap m (hrec _ _ _ _)
        | exact (Bal.wrap m (hrec _ _ _ _)).append (ih _ _ _ _)

theorem minLoop_trace_bal (G : Game) (rec : G.Pos → EInt → EInt → Tables → SR)
    (hrec : ∀ q a b T', Bal (rec q a b T').trace) (dNode : Nat) (p : G.Pos)
    (alpha : EInt) :
    ∀ ms isFirst minEval beta T,
      Bal (minLoop G rec dNode p alpha ms isFirst minEval beta T).trace := by
  intro ms
  induction ms with
  | nil => intro isFirst minEval beta T; exact Bal.nil
  | cons m ms ih =>
    intro isFirst minEval beta T
    rw [minLoop]
    split
    · split
      · exact Bal.wrap m (hrec _ _ _ _)
      · exact (Bal.wrap m (hrec _ _ _ _)).append (ih _ _ _ _)
    · dsimp only
      split <;> split <;>
        first
        | exact Bal.wrap m ((hrec _ _ _ _).append (hrec _ _ _ _))
        | exact (Bal.wrap m ((hrec _ _ _ _).append (hrec _ _ _ _))).append (ih _ _ _ _)
        | exact Bal.wrap m (hrec _ _ _ _)
        | exact (Bal.wrap m (hrec _ _ _ _)).append (ih _ _ _ _)

theorem minimax_trace_bal (G : Game) :
    ∀ d p isMax alpha beta T, Bal (minimax G d p isMax alpha beta T).trace := by
  intro d
  induction d with
  | zero => intro p isMax alpha beta T; exact quiescence_trace_bal G p alpha beta _
  | succ d ih =>
    intro p isMax alpha beta T
    rw [minimax]
    dsimp only
    split
    · exact Bal.nil
    · split
      · exact Bal.nil
      · split
        · exact Bal.nil
        · split
          · exact maxLoop_trace_bal G _ (fun q a b T' => ih q false a b T') _ p _ _ _ _ _ _
          · exact minLoop_trace_bal G _ (fun q a b T' => ih q true a b T') _ p _ _ _ _ _ _

theorem rootMaxLoop_trace_bal (G : Game) (d : Nat) (p : G.Pos) :
    ∀ ms best alpha beta T,
      Bal (rootMaxLoop G d p ms best alpha beta T).2.2.2 := by
  intro ms
  induction ms with
  | nil => intro best alpha beta T; exact Bal.nil
  | cons m ms ih =>
    intro best alpha beta T
    rw [rootMaxLoop]
    exact (Bal.wrap m (minimax_trace_bal G d _ false _ _ _)).append (ih _ _ _ _)

theorem rootMinLoop_trace_bal (G : Game) (d : Nat) (p : G.Pos) :
    ∀ ms best alpha beta T,
      Bal (rootMinLoop G d p ms best alpha beta T).2.2.2 := by
  intro ms
  induction ms with
  | nil => intro best alpha beta T; exact Bal.nil
  | cons m ms ih =>
    intro best alpha beta T
    rw [rootMinLoop]
    exact (Bal.wrap m (minimax_trace_bal G d _ true _ _ _)).append (ih _ _ _ _)

theorem searchMove_trace_bal (G : Game) (d : Nat) (pc : Bool) (p : G.Pos)
    (T : Tables) : Bal (searchMove G d pc p T).trace := by
  rw [searchMove]
  split
  · exact rootMaxLoop_trace_bal G _ p _ _ _ _ _
  · exact rootMinLoop_trace_bal G _ p _ _ _ _ _

theorem idGo_trace_bal (step : Nat → Tables → Except Unit (Option MoveS × Tables × List Ev))
    (hstep : ∀ d T' r, step d T' = Except.ok r → Bal r.2.2) :
    ∀ n cur best T acc, Bal acc → Bal (idGo step cur n best T acc).2.2 := by
  intro n
  induction n with
  | zero => intro cur best T acc hacc; exact hacc
  | succ n ih =>
    intro cur best T acc hacc
    rw [idGo]
    cases hs : step cur T with
    | ok r => exact ih _ _ _ _ (hacc.append (hstep _ _ _ hs))
    | error e => exact hacc

theorem getBestMove_trace_bal (G : Game) (p : G.Pos) (depth : Nat) (pc it : Bool)
    (T : Tables) : Bal (getBestMove G p depth pc it T).2.2 := by
  rw [getBestMove]
  dsimp only
  split
  · refine idGo_trace_bal _ ?_ depth 1 none _ [] Bal.nil
    intro d T' r hr
    have : r = (let s := searchMove G d pc p T'; (s.move, s.tables, s.trace)) := by
      cases hr; rfl
    subst this
    exact searchMove_trace_bal G d pc p T'
  · exact searchMove_trace_bal G depth pc p _

/- Fuel irrelevance: the quiescence recursion depth is bounded by `G.rank`
   (the number of pieces that can still be captured), because every searched
   move is a capture and captures strictly decrease `rank`. -/

theorem foldr_congr_mem {α β : Type} (l : List α) (f g : α → β → β) (b : β)
    (h : ∀ a ∈ l, ∀ acc, f a acc = g a acc) : l.foldr f b = l.foldr g b := by
  induction l with
  | nil => rfl
  | cons x xs ih =>
    simp only [List.foldr_cons]
    rw [h x (List.mem_cons_self x xs), ih (fun a ha acc => h a (List.mem_cons_of_mem x ha) acc)]

theorem mem_qCands_capture (G : Game) (p : G.Pos) (m : MoveS)
    (h : m ∈ qCands G p) : G.isCapture p m = true := by
  have h1 := List.of_mem_filter h
  simp only [Bool.and_eq_true, Bool.not_eq_true'] at h1
  exact h1.1

theorem tQF_irrel (G : Game) :
    ∀ n, ∀ p, G.rank p < n → tQF G n p = trueQ G p := by
  intro n
  induction n using Nat.strong_induction_on with
  | _ n ih =>
    intro p hp
    match n, hp with
    | n' + 1, hp =>
      have hchild : ∀ m ∈ qCands G p, ∀ k, G.rank p ≤ k → k ≤ n' →
          tQF G k (G.push p m) = trueQ G (G.push p m) := by
        intro m hm k hk hk2
        have hcap := mem_qCands_capture G p m hm
        have hlt : G.rank (G.push p m) < G.rank p := G.rank_capture p m hcap
        exact ih k (by omega) (G.push p m) (by omega)
      have h1 : tQF G (n' + 1) p =
          (qCands G p).foldr
            (fun m acc => max (-(trueQ G (G.push p m))) acc) (engineEval G p) := by
        rw [tQF]
        exact foldr_congr_mem _ _ _ _
          (fun m hm acc => by rw [hchild m hm n' (by omega) (by omega)])
      have h2 : trueQ G p =
          (qCands G p).foldr
            (fun m acc => max (-(trueQ G (G.push p m))) acc) (engineEval G p) := by
        rw [trueQ, tQF]
        exact foldr_congr_mem _ _ _ _
          (fun m hm acc => by rw [hchild m hm (G.rank p) (by omega) (by omega)])
      rw [h1, h2]

/-- The recursion equation of the window-free quiescence value. -/
theorem trueQ_eq (G : Game) (p : G.Pos) :
    trueQ G p =
      (qCands G p).foldr
        (fun m acc => max (-(trueQ G (G.push p m))) acc) (engineEval G p) := by
  rw [trueQ, tQF]
  refine foldr_congr_mem _ _ _ _ (fun m hm acc => ?_)
  have hcap := mem_qCands_capture G p m hm
  have hlt : G.rank (G.push p m) < G.rank p := G.rank_capture p m hcap
  rw [tQF_irrel G (G.rank p) (G.push p m) hlt]

theorem qloopF_congr (G : Game) (rec1 rec2 : G.Pos → EInt → EInt → Tables → SR)
    (p : G.Pos)
    (h : ∀ m, G.isCapture p m = true →
      ∀ a b T', rec1 (G.push p m) a b T' = rec2 (G.push p m) a b T') :
    ∀ ms alpha beta T,
      qloopF G rec1 p ms alpha beta T = qloopF G rec2 p ms alpha beta T := by
  intro ms
  induction ms with
  | nil => intro alpha beta T; rfl
  | cons m ms ih =>
    intro alpha beta T
    rw [qloopF, qloopF]
    split
    · exact ih alpha beta T
    · next hcap =>
      split
      · exact ih alpha beta T
      · have hc : G.isCapture p m = true := by
          revert hcap; cases G.isCapture p m <;> simp
        rw [h m hc]
        dsimp only
        split
        · rfl
        · rw [ih]

theorem qF_irrel (G : Game) :
    ∀ n, ∀ p alpha beta T, G.rank p < n →
      qF G n p alpha beta T = quiescence G p alpha beta T := by
  intro n
  induction n using Nat.strong_induction_on with
  | _ n ih =>
    intro p alpha beta T hp
    match n, hp with
    | n' + 1, hp =>
      have key : ∀ k, G.rank p ≤ k → k ≤ n' →
          qloopF G (qF G k) p (G.legal p) (max alpha (EInt.fin (engineEval G p)))
              beta (incNodes T) =
            qloopF G (qF G (G.rank p)) p (G.legal p)
              (max alpha (EInt.fin (engineEval G p))) beta (incNodes T) := by
        intro k hk hk2
        refine qloopF_congr G _ _ p (fun m hc a b T' => ?_) _ _ _ _
        have hlt : G.rank (G.push p m) < G.rank p := G.rank_capture p m hc
        rw [ih k (by omega) _ a b T' (by omega),
          ih (G.rank p) (by omega) _ a b T' (by omega)]
      by_cases hst : beta ≤ EInt.fin (engineEval G p)
      · rw [quiescence, qF, qF]
        simp only [hst, if_true]
      · rw [quiescence, qF, qF]
        simp only [hst, if_false]
        exact (key n' (by omega) (by omega)).trans
          (key (G.rank p) (by omega) (by omega)).symm

/- The fail-hard window property of quiescence: for a valid window, the value
   returned is exactly the window-free value clamped into [alpha, beta]. -/

/-- The supremum (as an extended integer) of the negated recursive values of
    the captures the quiescence loop searches among `ms`. -/
def qSupE (G : Game) (p : G.Pos) (ms : List MoveS) : EInt :=
  ms.foldr
    (fun m acc =>
      if G.isCapture p m && !skipCapture G p m then
        max (EInt.fin (-(trueQ G (G.push p m)))) acc
      else acc)
    EInt.bot

theorem qloopF_val (G : Game) (rec : G.Pos → EInt → EInt → Tables → SR)
    (p : G.Pos) (beta : EInt)
    (hrec : ∀ m, G.isCapture p m = true → ∀ a b T', a < b →
      (rec (G.push p m) a b T').val =
        max a (min b (EInt.fin (trueQ G (G.push p m))))) :
    ∀ ms alpha T, alpha < beta →
      (qloopF G rec p ms alpha beta T).val =
        max alpha (min beta (qSupE G p ms)) := by
  intro ms
  induction ms with
  | nil =>
    intro alpha T h
    simp [qloopF, qSupE]
  | cons m ms ih =>
    intro alpha T h
    rw [qloopF]
    split
    · next hcap =>
      rw [ih alpha T h]
      have : qSupE G p (m :: ms) = qSupE G p ms := by
        simp only [qSupE, List.foldr_cons]
        rw [if_neg (by simp [hcap])]
      rw [this]
    · next hcap =>
      have hc : G.isCapture p m = true := by
        revert hcap; cases G.isCapture p m <;> simp
      split
      · next hskip =>
        rw [ih alpha T h]
        have : qSupE G p (m :: ms) = qSupE G p ms := by
          simp only [qSupE, List.foldr_cons]
          rw [if_neg (by simp [hc, hskip])]
        rw [this]
      · next hskip =>
        have hsk : skipCapture G p m = false := by
          revert hskip; cases skipCapture G p m <;> simp
        have hsup : qSupE G p (m :: ms) =
            max (EInt.fin (-(trueQ G (G.push p m)))) (qSupE G p ms) := by
          simp only [qSupE, List.foldr_cons]
          rw [if_pos (by simp [hc, hsk])]
        dsimp only
        rw [hrec m hc _ _ T (by simpa using h)]
        set tq : EInt := EInt.fin (trueQ G (G.push p m)) with htq
        have hscore : EInt.neg (max (EInt.neg beta) (min (EInt.neg alpha) tq)) =
            min beta (max alpha (EInt.neg tq)) := by
          rw [EInt.neg_max, EInt.neg_min, EInt.neg_neg, EInt.neg_neg]
        rw [hscore]
        have halpha1 : max alpha (min beta (max alpha (EInt.neg tq))) =
            max alpha (min beta (EInt.neg tq)) := EInt.clamp_absorb _ h.le
        rw [halpha1]
        have hnegtq : EInt.neg tq = EInt.fin (-(trueQ G (G.push p m))) := by
          rw [htq]; rfl
        split
        · next hcut =>
          have hle : max alpha (min beta (EInt.neg tq)) ≤ beta :=
            EInt.clamp_le_right _ h.le
          have heq : max alpha (min beta (EInt.neg tq)) = beta :=
            le_antisymm hle hcut
          have hbtq : beta ≤ EInt.neg tq := (EInt.clamp_eq_right_iff _ h).mp heq
          rw [hsup, ← hnegtq]
          have : beta ≤ max (EInt.neg tq) (qSupE G p ms) :=
            le_trans hbtq (le_max_left _ _)
          rw [min_eq_left this, max_eq_right h.le]
        · next hcut =>
          have hlt : max alpha (min beta (EInt.neg tq)) < beta := lt_of_not_le hcut
          dsimp only
          rw [ih _ _ hlt, hsup, ← hnegtq]
          exact EInt.clamp_shift _ _ h.le

/-- For every position the window-free quiescence value is at least the
    stand-pat evaluation. -/
theorem engineEval_le_trueQ (G : Game) (p : G.Pos) :
    engineEval G p ≤ trueQ G p := by
  rw [trueQ_eq]
  induction qCands G p with
  | nil => exact le_refl _
  | cons m ms ih => exact le_trans ih (le_max_right _ _)

theorem fin_foldr_max (f : MoveS → Int) :
    ∀ (l : List MoveS) (e : Int),
      EInt.fin (l.foldr (fun m acc => max (f m) acc) e) =
        max (EInt.fin e)
          (l.foldr (fun m acc => max (EInt.fin (f m)) acc) EInt.bot) := by
  intro l
  induction l with
  | nil => intro e; simp
  | cons m ms ih =>
    intro e
    simp only [List.foldr_cons]
    rw [EInt.fin_max, ih e]
    rw [← max_assoc, max_comm (EInt.fin (f m)) (EInt.fin e), max_assoc]

theorem qSupE_eq_filter (G : Game) (p : G.Pos) :
    ∀ ms, qSupE G p ms =
      (ms.filter (fun m => G.isCapture p m && !skipCapture G p m)).foldr
        (fun m acc => max (EInt.fin (-(trueQ G (G.push p m)))) acc) EInt.bot := by
  intro ms
  induction ms with
  | nil => rfl
  | cons m ms ih =>
    rw [List.filter_cons]
    by_cases hc : (G.isCapture p m && !skipCapture G p m) = true
    · rw [if_pos hc]
      show (if G.isCapture p m && !skipCapture G p m then
          max (EInt.fin (-(trueQ G (G.push p m)))) (qSupE G p ms)
        else qSupE G p ms) = _
      rw [if_pos hc, List.foldr_cons, ih]
    · rw [if_neg hc]
      show (if G.isCapture p m && !skipCapture G p m then
          max (EInt.fin (-(trueQ G (G.push p m)))) (qSupE G p ms)
        else qSupE G p ms) = _
      rw [if_neg hc, ih]

/-- The window-free quiescence value, as an extended integer, is the maximum
    of the stand-pat score and the searched capture scores. -/
theorem fin_trueQ_eq (G : Game) (p : G.Pos) :
    EInt.fin (trueQ G p) =
      max (EInt.fin (engineEval G p)) (qSupE G p (G.legal p)) := by
  rw [trueQ_eq, qCands]
  rw [fin_foldr_max (fun m => -(trueQ G (G.push p m)))
    ((G.legal p).filter (fun m => G.isCapture p m && !skipCapture G p m))
    (engineEval G p)]
  rw [qSupE_eq_filter]

/-- Fail-hard window property of `_quiescence` at every sufficient fuel:
    the result is the window-free value clamped into the window. -/
theorem qF_val (G : Game) :
    ∀ n p alpha beta T, G.rank p < n → alpha < beta →
      (qF G n p alpha beta T).val =
        max alpha (min beta (EInt.fin (trueQ G p))) := by
  intro n
  induction n using Nat.strong_induction_on with
  | _ n ih =>
    intro p alpha beta T hp h
    match n, hp with
    | n' + 1, hp =>
      rw [qF]
      split
      · next hstand =>
        have h1 : beta ≤ EInt.fin (trueQ G p) := by
          refine le_trans hstand ?_
          simpa using engineEval_le_trueQ G p
        rw [min_eq_left h1, max_eq_right h.le]
      · next hstand =>
        have hstand' : EInt.fin (engineEval G p) < beta := lt_of_not_le hstand
        have halpha1 : max alpha (EInt.fin (engineEval G p)) < beta :=
          max_lt h hstand'
        rw [qloopF_val G (qF G n') p beta ?hrec (G.legal p) _ _ halpha1]
        case hrec =>
          intro m hc a b T' hab
          have hlt : G.rank (G.push p m) < G.rank p := G.rank_capture p m hc
          exact ih n' (by omega) (G.push p m) a b T' (by omega) hab
        rw [fin_trueQ_eq, min_max_distrib_left, min_eq_right hstand'.le, ← max_assoc]

theorem quiescence_val (G : Game) (p : G.Pos) (alpha beta : EInt) (T : Tables)
    (h : alpha < beta) :
    (quiescence G p alpha beta T).val =
      max alpha (min beta (EInt.fin (trueQ G p))) :=
  qF_val G (G.rank p + 1) p alpha beta T (Nat.lt_succ_self _) h

/- Integer fold helpers for the full-width node values. -/

/-- Running maximum of child values, as the minimax maximizing branch computes
    it. -/
def foldMaxI (f : MoveS → Int) (ms : List MoveS) (i : Int) : Int :=
  ms.foldl (fun acc m => max acc (f m)) i

/-- Running minimum of child values. -/
def foldMinI (f : MoveS → Int) (ms : List MoveS) (i : Int) : Int :=
  ms.foldl (fun acc m => min acc (f m)) i

theorem foldMaxI_cons (f : MoveS → Int) (m : MoveS) (ms : List MoveS) (i : Int) :
    foldMaxI f (m :: ms) i = foldMaxI f ms (max i (f m)) := rfl

theorem foldMinI_cons (f : MoveS → Int) (m : MoveS) (ms : List MoveS) (i : Int) :
    foldMinI f (m :: ms) i = foldMinI f ms (min i (f m)) := rfl

theorem le_foldMaxI (f : MoveS → Int) :
    ∀ (ms : List MoveS) (i : Int), i ≤ foldMaxI f ms i := by
  intro ms
  induction ms with
  | nil => intro i; exact le_refl i
  | cons m ms ih =>
    intro i
    exact le_trans (le_max_left i (f m)) (ih (max i (f m)))

theorem foldMinI_le (f : MoveS → Int) :
    ∀ (ms : List MoveS) (i : Int), foldMinI f ms i ≤ i := by
  intro ms
  induction ms with
  | nil => intro i; exact le_refl i
  | cons m ms ih =>
    intro i
    exact le_trans (ih (min i (f m))) (min_le_left i (f m))

/-- Supremum of child values, as an extended integer with `bot` for the empty
    list. -/
def supEI (f : MoveS → Int) (l : List MoveS) : EInt :=
  l.foldr (fun m acc => max (EInt.fin (f m)) acc) EInt.bot

/-- Infimum of child values, with `top` for the empty list. -/
def infEI (f : MoveS → Int) (l : List MoveS) : EInt :=
  l.foldr (fun m acc => min (EInt.fin (f m)) acc) EInt.top

theorem supEI_cons (f : MoveS → Int) (m : MoveS) (ms : List MoveS) :
    supEI f (m :: ms) = max (EInt.fin (f m)) (supEI f ms) := rfl

theorem infEI_cons (f : MoveS → Int) (m : MoveS) (ms : List MoveS) :
    infEI f (m :: ms) = min (EInt.fin (f m)) (infEI f ms) := rfl

theorem fin_foldMaxI (f : MoveS → Int) :
    ∀ (ms : List MoveS) (i : Int),
      EInt.fin (foldMaxI f ms i) = max (EInt.fin i) (supEI f ms) := by
  intro ms
  induction ms with
  | nil => intro i; simp [foldMaxI, supEI]
  | cons m ms ih =>
    intro i
    rw [foldMaxI_cons, ih, supEI_cons, EInt.fin_max, max_assoc]

theorem fin_foldMinI (f : MoveS → Int) :
    ∀ (ms : List MoveS) (i : Int),
      EInt.fin (foldMinI f ms i) = min (EInt.fin i) (infEI f ms) := by
  intro ms
  induction ms with
  | nil => intro i; simp [foldMinI, infEI]
  | cons m ms ih =>
    intro i
    rw [foldMinI_cons, ih, infEI_cons, EInt.fin_min, min_assoc]

theorem supEI_perm (f : MoveS → Int) {l1 l2 : List MoveS} (h : l1.Perm l2) :
    supEI f l1 = supEI f l2 := by
  induction h with
  | nil => rfl
  | cons x _ ih => rw [supEI_cons, supEI_cons, ih]
  | swap x y l =>
    rw [supEI_cons, supEI_cons, supEI_cons, supEI_cons]
    rw [← max_assoc, max_comm (EInt.fin (f y)) (EInt.fin (f x)), max_assoc]
  | trans _ _ ih1 ih2 => exact ih1.trans ih2

theorem infEI_perm (f : MoveS → Int) {l1 l2 : List MoveS} (h : l1.Perm l2) :
    infEI f l1 = infEI f l2 := by
  induction h with
  | nil => rfl
  | cons x _ ih => rw [infEI_cons, infEI_cons, ih]
  | swap x y l =>
    rw [infEI_cons, infEI_cons, infEI_cons, infEI_cons]
    rw [← min_assoc, min_comm (EInt.fin (f y)) (EInt.fin (f x)), min_assoc]
  | trans _ _ ih1 ih2 => exact ih1.trans ih2

/- The stable sort used by move ordering is a permutation of its input. -/

theorem insertByDesc_perm (key : MoveS → Int) (m : MoveS) :
    ∀ l : List MoveS, (insertByDesc key m l).Perm (m :: l) := by
  intro l
  induction l with
  | nil => exact List.Perm.refl _
  | cons x xs ih =>
    rw [insertByDesc]
    split
    · exact List.Perm.refl _
    · exact (List.Perm.cons x ih).trans (List.Perm.swap m x xs)

theorem sortByDesc_perm (key : MoveS → Int) :
    ∀ l : List MoveS, (sortByDesc key l).Perm l := by
  intro l
  induction l with
  | nil => exact List.Perm.refl _
  | cons x xs ih =>
    exact (insertByDesc_perm key x (sortByDesc key xs)).trans (List.Perm.cons x ih)

theorem orderMoves_perm (G : Game) (p : G.Pos) (T : Tables) (moves : List MoveS)
    (isMax : Bool) : (orderMoves G p T moves isMax).Perm moves :=
  sortByDesc_perm (moveScore G p T) moves

/- Unfolding equations of the PVS loops. -/

theorem maxLoop_cons_true (G : Game) (rec : G.Pos → EInt → EInt → Tables → SR)
    (dNode : Nat) (p : G.Pos) (beta : EInt) (m : MoveS) (ms : List MoveS)
    (maxEval alpha : EInt) (T : Tables) :
    maxLoop G rec dNode p beta (m :: ms) true maxEval alpha T =
      (let r := rec (G.push p m) alpha beta T
       let maxEval1 := max maxEval r.val
       let alpha1 := max alpha r.val
       let tr1 := Ev.push m :: r.trace ++ [Ev.pop]
       if beta ≤ alpha1 then
         ⟨maxEval1, updateHistory (updateKiller r.tables m) m dNode, tr1⟩
       else
         let rest := maxLoop G rec dNode p beta ms false maxEval1 alpha1 r.tables
         ⟨rest.val, rest.tables, tr1 ++ rest.trace⟩) := rfl

theorem maxLoop_cons_false (G : Game) (rec : G.Pos → EInt → EInt → Tables → SR)
    (dNode : Nat) (p : G.Pos) (beta : EInt) (m : MoveS) (ms : List MoveS)
    (maxEval alpha : EInt) (T : Tables) :
    maxLoop G rec dNode p beta (m :: ms) false maxEval alpha T =
      (let r0 := rec (G.push p m) alpha (EInt.succ alpha) T
       let r : SR :=
         if alpha < r0.val ∧ r0.val < beta then
           let r1 := rec (G.push p m) alpha beta r0.tables
           ⟨r1.val, r1.tables, r0.trace ++ r1.trace⟩
         else r0
       let maxEval1 := max maxEval r.val
       let alpha1 := max alpha r.val
       let tr1 := Ev.push m :: r.trace ++ [Ev.pop]
       if beta ≤ alpha1 then
         ⟨maxEval1, updateHistory (updateKiller r.tables m) m dNode, tr1⟩
       else
         let rest := maxLoop G rec dNode p beta ms false maxEval1 alpha1 r.tables
         ⟨rest.val, rest.tables, tr1 ++ rest.trace⟩) := rfl

theorem minLoop_cons_true (G : Game) (rec : G.Pos → EInt → EInt → Tables → SR)
    (dNode : Nat) (p : G.Pos) (alpha : EInt) (m : MoveS) (ms : List MoveS)
    (minEval beta : EInt) (T : Tables) :
    minLoop G rec dNode p alpha (m :: ms) true minEval beta T =
      (let r := rec (G.push p m) alpha beta T
       let minEval1 := min minEval r.val
       let beta1 := min beta r.val
       let tr1 := Ev.push m :: r.trace ++ [Ev.pop]
       if beta1 ≤ alpha then
         ⟨minEval1, updateHistory (updateKiller r.tables m) m dNode, tr1⟩
       else
         let rest := minLoop G rec dNode p alpha ms false minEval1 beta1 r.tables
         ⟨rest.val, rest.tables, tr1 ++ rest.trace⟩) := rfl

/-- The per-move body of the maximizing PVS loop (null-window probe plus
    conditional re-search), as a standalone function: definitionally the
    `r` computed by `maxLoop` for a non-first move. -/
def pvsStepMax (G : Game) (rec : G.Pos → EInt → EInt → Tables → SR)
    (p : G.Pos) (m : MoveS) (alpha beta : EInt) (T : Tables) : SR :=
  if alpha < (rec (G.push p m) alpha (EInt.succ alpha) T).val ∧
      (rec (G.push p m) alpha (EInt.succ alpha) T).val < beta then
    ⟨(rec (G.push p m) alpha beta
        (rec (G.push p m) alpha (EInt.succ alpha) T).tables).val,
      (rec (G.push p m) alpha beta
        (rec (G.push p m) alpha (EInt.succ alpha) T).tables).tables,
      (rec (G.push p m) alpha (EInt.succ alpha) T).trace ++
        (rec (G.push p m) alpha beta
          (rec (G.push p m) alpha (EInt.succ alpha) T).tables).trace⟩
  else rec (G.push p m) alpha (EInt.succ alpha) T

/-- The tail of one maximizing-loop iteration after the move's score `r` is
    known: cutoff bookkeeping or continuation, definitionally equal to the
    corresponding part of `maxLoop`. -/
def contMax (G : Game) (rec : G.Pos → EInt → EInt → Tables → SR)
    (dNode : Nat) (p : G.Pos) (beta : EInt) (m : MoveS) (ms : List MoveS)
    (maxEval alpha : EInt) (r : SR) : SR :=
  if beta ≤ max alpha r.val then
    ⟨max maxEval r.val, updateHistory (updateKiller r.tables m) m dNode,
      Ev.push m :: r.trace ++ [Ev.pop]⟩
  else
    ⟨(maxLoop G rec dNode p beta ms false (max maxEval r.val) (max alpha r.val)
        r.tables).val,
      (maxLoop G rec dNode p beta ms false (max maxEval r.val) (max alpha r.val)
        r.tables).tables,
      (Ev.push m :: r.trace ++ [Ev.pop]) ++
        (maxLoop G rec dNode p beta ms false (max maxEval r.val)
          (max alpha r.val) r.tables).trace⟩

theorem maxLoop_eq_contMax_true (G : Game)
    (rec : G.Pos → EInt → EInt → Tables → SR) (dNode : Nat) (p : G.Pos)
    (beta : EInt) (m : MoveS) (ms : List MoveS) (maxEval alpha : EInt)
    (T : Tables) :
    maxLoop G rec dNode p beta (m :: ms) true maxEval alpha T =
      contMax G rec dNode p beta m ms maxEval alpha
        (rec (G.push p m) alpha beta T) := rfl

theorem maxLoop_eq_contMax_false (G : Game)
    (rec : G.Pos → EInt → EInt → Tables → SR) (dNode : Nat) (p : G.Pos)
    (beta : EInt) (m : MoveS) (ms : List MoveS) (maxEval alpha : EInt)
    (T : Tables) :
    maxLoop G rec dNode p beta (m :: ms) false maxEval alpha T =
      contMax G rec dNode p beta m ms maxEval alpha
        (pvsStepMax G rec p m alpha beta T) := rfl

theorem minLoop_cons_false (G : Game) (rec : G.Pos → EInt → EInt → Tables → SR)
    (dNode : Nat) (p : G.Pos) (alpha : EInt) (m : MoveS) (ms : List MoveS)
    (minEval beta : EInt) (T : Tables) :
    minLoop G rec dNode p alpha (m :: ms) false minEval beta T =
      (let r0 := rec (G.push p m) (EInt.pred beta) beta T
       let r : SR :=
         if alpha < r0.val ∧ r0.val < beta then
           let r1 := rec (G.push p m) alpha beta r0.tables
           ⟨r1.val, r1.tables, r0.trace ++ r1.trace⟩
         else r0
       let minEval1 := min minEval r.val
       let beta1 := min beta r.val
       let tr1 := Ev.push m :: r.trace ++ [Ev.pop]
       if beta1 ≤ alpha then
         ⟨minEval1, updateHistory (updateKiller r.tables m) m dNode, tr1⟩
       else
         let rest := minLoop G rec dNode p alpha ms false minEval1 beta1 r.tables
         ⟨rest.val, rest.tables, tr1 ++ rest.trace⟩) := rfl

/- Fail-soft sandwich property of the maximizing PVS search: with a valid
   window, the returned score is trapped between the full-width value clamped
   below by beta and clamped above by alpha. In particular, when the
   full-width value lies strictly inside the window the returned score is
   exactly the full-width value: the null-window probes and re-searches never
   change the result, only the work. -/

theorem pvsStepMax_sandwich (G : Game)
    (rec : G.Pos → EInt → EInt → Tables → SR) (vW : MoveS → Int)
    (p : G.Pos) (m : MoveS) (beta : EInt)
    (hrec : ∀ (a b : EInt) (T' : Tables), a < b →
      min b (EInt.fin (vW m)) ≤ (rec (G.push p m) a b T').val ∧
        (rec (G.push p m) a b T').val ≤ max a (EInt.fin (vW m)))
    (alpha : EInt) (T : Tables) (hfin : ∃ a : Int, alpha = EInt.fin a)
    (hab : alpha < beta) :
    min beta (EInt.fin (vW m)) ≤ (pvsStepMax G rec p m alpha beta T).val ∧
      (pvsStepMax G rec p m alpha beta T).val ≤ max alpha (EInt.fin (vW m)) := by
  obtain ⟨a, ha⟩ := hfin
  subst ha
  have hprobe := hrec (EInt.fin a) (EInt.succ (EInt.fin a)) T
    (by rw [EInt.succ_fin]; simp)
  rw [pvsStepMax]
  split
  · next hcond =>
    exact hrec (EInt.fin a) beta _ hab
  · next hcond =>
    constructor
    · by_cases h1 : EInt.fin a <
          (rec (G.push p m) (EInt.fin a) (EInt.succ (EInt.fin a)) T).val
      · have h2 : beta ≤
            (rec (G.push p m) (EInt.fin a) (EInt.succ (EInt.fin a)) T).val := by
          by_contra h3
          exact hcond ⟨h1, lt_of_not_le h3⟩
        exact le_trans (min_le_left _ _) h2
      · have h2 :
            (rec (G.push p m) (EInt.fin a) (EInt.succ (EInt.fin a)) T).val ≤
              EInt.fin a := le_of_not_lt h1
        rcases le_or_lt (vW m) a with hva | hva
        · have h3 : min (EInt.succ (EInt.fin a)) (EInt.fin (vW m)) =
              EInt.fin (vW m) := by
            rw [EInt.succ_fin]
            exact min_eq_right (by simp; omega)
          have h4 := hprobe.1
          rw [h3] at h4
          exact le_trans (min_le_right _ _) h4
        · exfalso
          have h3 : min (EInt.succ (EInt.fin a)) (EInt.fin (vW m)) =
              EInt.fin (a + 1) := by
            rw [EInt.succ_fin]
            exact min_eq_left (by simp; omega)
          have h4 := hprobe.1
          rw [h3] at h4
          have h5 := le_trans h4 h2
          rw [EInt.fin_le_fin] at h5
          omega
    · exact hprobe.2

theorem contMax_sandwich (G : Game)
    (rec : G.Pos → EInt → EInt → Tables → SR) (vW : MoveS → Int)
    (dNode : Nat) (p : G.Pos) (beta : EInt) (m : MoveS) (ms : List MoveS)
    (alpha0 : EInt) (h0 : alpha0 < beta)
    (ih : ∀ (M' : Int) (me' : EInt) (T' : Tables),
      EInt.fin M' ≤ me' → me' ≤ max alpha0 (EInt.fin M') → me' < beta →
      min beta (EInt.fin (foldMaxI vW ms M')) ≤
          (maxLoop G rec dNode p beta ms false me' (max alpha0 me') T').val ∧
        (maxLoop G rec dNode p beta ms false me' (max alpha0 me') T').val ≤
          max alpha0 (EInt.fin (foldMaxI vW ms M')))
    (v M' : Int) (r : SR) (A maxEvalArg : EInt)
    (hAeq : max alpha0 maxEvalArg = A)
    (hAlt : A < beta)
    (hmaxle : maxEvalArg ≤ A)
    (hr1 : min beta (EInt.fin v) ≤ r.val)
    (hr2 : r.val ≤ max A (EInt.fin v))
    (hM1 : EInt.fin M' ≤ max maxEvalArg (EInt.fin v))
    (hM2 : max alpha0 (EInt.fin M') = max A (EInt.fin v)) :
    min beta (EInt.fin (foldMaxI vW ms M')) ≤
        (contMax G rec dNode p beta m ms maxEvalArg A r).val ∧
      (contMax G rec dNode p beta m ms maxEvalArg A r).val ≤
        max alpha0 (EInt.fin (foldMaxI vW ms M')) := by
  have hMfold : EInt.fin M' ≤ EInt.fin (foldMaxI vW ms M') := by
    simp only [EInt.fin_le_fin]
    exact le_foldMaxI vW ms M'
  rw [contMax]
  split
  · next hcut =>
    have hbr : beta ≤ r.val := by
      rcases le_max_iff.mp hcut with h | h
      · exact absurd h (not_le_of_lt hAlt)
      · exact h
    dsimp only
    constructor
    · exact le_trans (min_le_left _ _) (le_trans hbr (le_max_right _ _))
    · refine max_le ?_ ?_
      · refine le_trans hmaxle (le_trans (le_max_left A (EInt.fin v)) ?_)
        rw [← hM2]
        exact max_le_max_left alpha0 hMfold
      · refine le_trans hr2 ?_
        rw [← hM2]
        exact max_le_max_left alpha0 hMfold
  · next hcut =>
    have hml : max A r.val < beta := lt_of_not_le hcut
    have hrv_lt : r.val < beta := lt_of_le_of_lt (le_max_right _ _) hml
    have hfv_le : EInt.fin v ≤ r.val := by
      rcases lt_or_le (EInt.fin v) beta with hvb | hvb
      · rwa [min_eq_right hvb.le] at hr1
      · exfalso
        rw [min_eq_left hvb] at hr1
        exact absurd (lt_of_le_of_lt hr1 hrv_lt) (lt_irrefl beta)
    have hme' : max alpha0 (max maxEvalArg r.val) = max A r.val := by
      rw [← max_assoc, hAeq]
    have hlb' : EInt.fin M' ≤ max maxEvalArg r.val :=
      le_trans hM1 (max_le_max_left maxEvalArg hfv_le)
    have hub' : max maxEvalArg r.val ≤ max alpha0 (EInt.fin M') := by
      rw [hM2]
      exact max_le (le_trans hmaxle (le_max_left A (EInt.fin v))) hr2
    have hlt' : max maxEvalArg r.val < beta :=
      max_lt (lt_of_le_of_lt hmaxle hAlt) hrv_lt
    have := ih M' (max maxEvalArg r.val) r.tables hlb' hub' hlt'
    rw [hme'] at this
    dsimp only
    exact this

/-- Sandwich invariant of the maximizing PVS loop over the non-first moves. -/
theorem maxLoop_inner_sandwich (G : Game)
    (rec : G.Pos → EInt → EInt → Tables → SR) (vW : MoveS → Int)
    (dNode : Nat) (p : G.Pos) (beta : EInt)
    (hrec : ∀ (m : MoveS) (a b : EInt) (T' : Tables), a < b →
      min b (EInt.fin (vW m)) ≤ (rec (G.push p m) a b T').val ∧
        (rec (G.push p m) a b T').val ≤ max a (EInt.fin (vW m)))
    (alpha0 : EInt) (h0 : alpha0 < beta) :
    ∀ (ms : List MoveS) (M : Int) (me : EInt) (T : Tables),
      EInt.fin M ≤ me → me ≤ max alpha0 (EInt.fin M) → me < beta →
      min beta (EInt.fin (foldMaxI vW ms M)) ≤
          (maxLoop G rec dNode p beta ms false me (max alpha0 me) T).val ∧
        (maxLoop G rec dNode p beta ms false me (max alpha0 me) T).val ≤
          max alpha0 (EInt.fin (foldMaxI vW ms M)) := by
  intro ms
  induction ms with
  | nil =>
    intro M me T hlb hub hlt
    constructor
    · exact le_trans (min_le_right _ _) hlb
    · exact hub
  | cons m ms ih =>
    intro M me T hlb hub hlt
    have hAeq : max alpha0 me = max alpha0 (EInt.fin M) := by
      refine le_antisymm ?_ ?_
      · exact max_le (le_max_left _ _) hub
      · exact max_le_max_left alpha0 hlb
    have hAlt : max alpha0 me < beta := max_lt h0 hlt
    have hA_ne_top : max alpha0 me ≠ EInt.top := EInt.ne_top_of_lt hAlt
    have hA_ne_bot : max alpha0 me ≠ EInt.bot := by
      intro hbot
      have h1 : EInt.fin M ≤ max alpha0 me := le_trans hlb (le_max_right _ _)
      rw [hbot] at h1
      exact EInt.not_fin_le_bot M h1
    rw [maxLoop_eq_contMax_false, foldMaxI_cons]
    refine contMax_sandwich G rec vW dNode p beta m ms alpha0 h0 ih (vW m)
      (max M (vW m)) _ (max alpha0 me) me rfl hAlt (le_max_right _ _) ?_ ?_ ?_ ?_
    · exact (pvsStepMax_sandwich G rec vW p m beta (fun a b T' => hrec m a b T')
        (max alpha0 me) T (EInt.exists_fin hA_ne_bot hA_ne_top) hAlt).1
    · exact (pvsStepMax_sandwich G rec vW p m beta (fun a b T' => hrec m a b T')
        (max alpha0 me) T (EInt.exists_fin hA_ne_bot hA_ne_top) hAlt).2
    · rw [EInt.fin_max]
      exact max_le_max_right (EInt.fin (vW m)) hlb
    · rw [EInt.fin_max, hAeq, max_assoc]

/-- The per-move body of the minimizing PVS loop: null-window probe
    `(beta-1, beta)` plus conditional re-search, definitionally the `r`
    computed by `minLoop` for a non-first move. -/
def pvsStepMin (G : Game) (rec : G.Pos → EInt → EInt → Tables → SR)
    (p : G.Pos) (m : MoveS) (alpha beta : EInt) (T : Tables) : SR :=
  if alpha < (rec (G.push p m) (EInt.pred beta) beta T).val ∧
      (rec (G.push p m) (EInt.pred beta) beta T).val < beta then
    ⟨(rec (G.push p m) alpha beta
        (rec (G.push p m) (EInt.pred beta) beta T).tables).val,
      (rec (G.push p m) alpha beta
        (rec (G.push p m) (EInt.pred beta) beta T).tables).tables,
      (rec (G.push p m) (EInt.pred beta) beta T).trace ++
        (rec (G.push p m) alpha beta
          (rec (G.push p m) (EInt.pred beta) beta T).tables).trace⟩
  else rec (G.push p m) (EInt.pred beta) beta T

/-- The tail of one minimizing-loop iteration. -/
def contMin (G : Game) (rec : G.Pos → EInt → EInt → Tables → SR)
    (dNode : Nat) (p : G.Pos) (alpha : EInt) (m : MoveS) (ms : List MoveS)
    (minEval beta : EInt) (r : SR) : SR :=
  if min beta r.val ≤ alpha then
    ⟨min minEval r.val, updateHistory (updateKiller r.tables m) m dNode,
      Ev.push m :: r.trace ++ [Ev.pop]⟩
  else
    ⟨(minLoop G rec dNode p alpha ms false (min minEval r.val) (min beta r.val)
        r.tables).val,
      (minLoop G rec dNode p alpha ms false (min minEval r.val) (min beta r.val)
        r.tables).tables,
      (Ev.push m :: r.trace ++ [Ev.pop]) ++
        (minLoop G rec dNode p alpha ms false (min minEval r.val)
          (min beta r.val) r.tables).trace⟩

theorem minLoop_eq_contMin_true (G : Game)
    (rec : G.Pos → EInt → EInt → Tables → SR) (dNode : Nat) (p : G.Pos)
    (alpha : EInt) (m : MoveS) (ms : List MoveS) (minEval beta : EInt)
    (T : Tables) :
    minLoop G rec dNode p alpha (m :: ms) true minEval beta T =
      contMin G rec dNode p alpha m ms minEval beta
        (rec (G.push p m) alpha beta T) := rfl

theorem minLoop_eq_contMin_false (G : Game)
    (rec : G.Pos → EInt → EInt → Tables → SR) (dNode : Nat) (p : G.Pos)
    (alpha : EInt) (m : MoveS) (ms : List MoveS) (minEval beta : EInt)
    (T : Tables) :
    minLoop G rec dNode p alpha (m :: ms) false minEval beta T =
      contMin G rec dNode p alpha m ms minEval beta
        (pvsStepMin G rec p m alpha beta T) := rfl

theorem pvsStepMin_sandwich (G : Game)
    (rec : G.Pos → EInt → EInt → Tables → SR) (vW : MoveS → Int)
    (p : G.Pos) (m : MoveS) (alpha : EInt)
    (hrec : ∀ (a b : EInt) (T' : Tables), a < b →
      min b (EInt.fin (vW m)) ≤ (rec (G.push p m) a b T').val ∧
        (rec (G.push p m) a b T').val ≤ max a (EInt.fin (vW m)))
    (beta : EInt) (T : Tables) (hfin : ∃ b : Int, beta = EInt.fin b)
    (hab : alpha < beta) :
    min beta (EInt.fin (vW m)) ≤ (pvsStepMin G rec p m alpha beta T).val ∧
      (pvsStepMin G rec p m alpha beta T).val ≤ max alpha (EInt.fin (vW m)) := by
  obtain ⟨b, hb⟩ := hfin
  subst hb
  have hprobe := hrec (EInt.pred (EInt.fin b)) (EInt.fin b) T
    (by show EInt.fin (b - 1) < EInt.fin b; simp)
  rw [pvsStepMin]
  split
  · next hcond =>
    exact hrec alpha (EInt.fin b) _ hab
  · next hcond =>
    constructor
    · exact hprobe.1
    · by_cases h1 :
          (rec (G.push p m) (EInt.pred (EInt.fin b)) (EInt.fin b) T).val <
            EInt.fin b
      · have h2 :
            (rec (G.push p m) (EInt.pred (EInt.fin b)) (EInt.fin b) T).val ≤
              alpha := by
          by_contra h3
          exact hcond ⟨lt_of_not_le h3, h1⟩
        exact le_trans h2 (le_max_left _ _)
      · have h2 : EInt.fin b ≤
            (rec (G.push p m) (EInt.pred (EInt.fin b)) (EInt.fin b) T).val :=
          le_of_not_lt h1
        rcases le_or_lt b (vW m) with hvb | hvb
        · have h3 : max (EInt.pred (EInt.fin b)) (EInt.fin (vW m)) =
              EInt.fin (vW m) := by
            show max (EInt.fin (b - 1)) (EInt.fin (vW m)) = EInt.fin (vW m)
            exact max_eq_right (by simp; omega)
          have h4 := hprobe.2
          rw [h3] at h4
          exact le_trans h4 (le_max_right _ _)
        · exfalso
          have h3 : max (EInt.pred (EInt.fin b)) (EInt.fin (vW m)) =
              EInt.fin (b - 1) := by
            show max (EInt.fin (b - 1)) (EInt.fin (vW m)) = EInt.fin (b - 1)
            exact max_eq_left (by simp; omega)
          have h4 := hprobe.2
          rw [h3] at h4
          have h5 := le_trans h2 h4
          rw [EInt.fin_le_fin] at h5
          omega

theorem contMin_sandwich (G : Game)
    (rec : G.Pos → EInt → EInt → Tables → SR) (vW : MoveS → Int)
    (dNode : Nat) (p : G.Pos) (alpha0 : EInt) (m : MoveS) (ms : List MoveS)
    (beta0 : EInt) (h0 : alpha0 < beta0)
    (ih : ∀ (M' : Int) (me' : EInt) (T' : Tables),
      me' ≤ EInt.fin M' → min beta0 (EInt.fin M') ≤ me' → alpha0 < me' →
      min beta0 (EInt.fin (foldMinI vW ms M')) ≤
          (minLoop G rec dNode p alpha0 ms false me' (min beta0 me') T').val ∧
        (minLoop G rec dNode p alpha0 ms false me' (min beta0 me') T').val ≤
          max alpha0 (EInt.fin (foldMinI vW ms M')))
    (v M' : Int) (r : SR) (B minEvalArg : EInt)
    (hBeq : min beta0 minEvalArg = B)
    (hBgt : alpha0 < B)
    (hminle : B ≤ minEvalArg)
    (hr1 : min B (EInt.fin v) ≤ r.val)
    (hr2 : r.val ≤ max alpha0 (EInt.fin v))
    (hM1 : min minEvalArg (EInt.fin v) ≤ EInt.fin M')
    (hM2 : min beta0 (EInt.fin M') = min B (EInt.fin v)) :
    min beta0 (EInt.fin (foldMinI vW ms M')) ≤
        (contMin G rec dNode p alpha0 m ms minEvalArg B r).val ∧
      (contMin G rec dNode p alpha0 m ms minEvalArg B r).val ≤
        max alpha0 (EInt.fin (foldMinI vW ms M')) := by
  have hMfold : EInt.fin (foldMinI vW ms M') ≤ EInt.fin M' := by
    simp only [EInt.fin_le_fin]
    exact foldMinI_le vW ms M'
  rw [contMin]
  split
  · next hcut =>
    have hra : r.val ≤ alpha0 := by
      rcases min_le_iff.mp hcut with h | h
      · exact absurd h (not_le_of_lt hBgt)
      · exact h
    dsimp only
    have hkey : min beta0 (EInt.fin (foldMinI vW ms M')) ≤ min B (EInt.fin v) := by
      rw [← hM2]
      exact min_le_min_left beta0 hMfold
    constructor
    · refine le_min ?_ ?_
      · exact le_trans hkey (le_trans (min_le_left _ _) hminle)
      · exact le_trans hkey hr1
    · exact le_trans (min_le_right _ _)
        (le_trans hra (le_max_left alpha0 _))
  · next hcut =>
    have hml : alpha0 < min B r.val := lt_of_not_le hcut
    have hrv_gt : alpha0 < r.val := lt_of_lt_of_le hml (min_le_right _ _)
    have hfv_ge : r.val ≤ EInt.fin v := by
      rcases lt_or_le alpha0 (EInt.fin v) with hva | hva
      · rwa [max_eq_right hva.le] at hr2
      · exfalso
        rw [max_eq_left hva] at hr2
        exact absurd (lt_of_lt_of_le hrv_gt hr2) (lt_irrefl alpha0)
    have hme' : min beta0 (min minEvalArg r.val) = min B r.val := by
      rw [← min_assoc, hBeq]
    have hub' : min minEvalArg r.val ≤ EInt.fin M' :=
      le_trans (min_le_min_left minEvalArg hfv_ge) hM1
    have hlb' : min beta0 (EInt.fin M') ≤ min minEvalArg r.val := by
      rw [hM2]
      exact le_min (le_trans (min_le_left B (EInt.fin v)) hminle) hr1
    have hgt' : alpha0 < min minEvalArg r.val :=
      lt_min (lt_of_lt_of_le hBgt hminle) hrv_gt
    have := ih M' (min minEvalArg r.val) r.tables hub' hlb' hgt'
    rw [hme'] at this
    dsimp only
    exact this

/-- Sandwich invariant of the minimizing PVS loop over the non-first moves. -/
theorem minLoop_inner_sandwich (G : Game)
    (rec : G.Pos → EInt → EInt → Tables → SR) (vW : MoveS → Int)
    (dNode : Nat) (p : G.Pos) (alpha0 : EInt)
    (hrec : ∀ (m : MoveS) (a b : EInt) (T' : Tables), a < b →
      min b (EInt.fin (vW m)) ≤ (rec (G.push p m) a b T').val ∧
        (rec (G.push p m) a b T').val ≤ max a (EInt.fin (vW m)))
    (beta0 : EInt) (h0 : alpha0 < beta0) :
    ∀ (ms : List MoveS) (M : Int) (me : EInt) (T : Tables),
      me ≤ EInt.fin M → min beta0 (EInt.fin M) ≤ me → alpha0 < me →
      min beta0 (EInt.fin (foldMinI vW ms M)) ≤
          (minLoop G rec dNode p alpha0 ms false me (min beta0 me) T).val ∧
        (minLoop G rec dNode p alpha0 ms false me (min beta0 me) T).val ≤
          max alpha0 (EInt.fin (foldMinI vW ms M)) := by
  intro ms
  induction ms with
  | nil =>
    intro M me T hub hlb hgt
    constructor
    · exact hlb
    · exact le_trans hub (le_max_right _ _)
  | cons m ms ih =>
    intro M me T hub hlb hgt
    have hBeq : min beta0 me = min beta0 (EInt.fin M) := by
      refine le_antisymm ?_ ?_
      · exact min_le_min_left beta0 hub
      · exact le_min (min_le_left _ _) hlb
    have hBgt : alpha0 < min beta0 me := lt_min h0 hgt
    have hB_ne_bot : min beta0 me ≠ EInt.bot := EInt.ne_bot_of_lt hBgt
    have hB_ne_top : min beta0 me ≠ EInt.top := by
      intro htop
      have h1 : min beta0 me ≤ EInt.fin M := le_trans (min_le_right _ _) hub
      rw [htop] at h1
      exact EInt.not_top_le_fin M h1
    rw [minLoop_eq_contMin_false, foldMinI_cons]
    refine contMin_sandwich G rec vW dNode p alpha0 m ms beta0 h0 ih (vW m)
      (min M (vW m)) _ (min beta0 me) me rfl hBgt (min_le_right _ _) ?_ ?_ ?_ ?_
    · exact (pvsStepMin_sandwich G rec vW p m alpha0 (fun a b T' => hrec m a b T')
        (min beta0 me) T (EInt.exists_fin hB_ne_bot hB_ne_top) hBgt).1
    · exact (pvsStepMin_sandwich G rec vW p m alpha0 (fun a b T' => hrec m a b T')
        (min beta0 me) T (EInt.exists_fin hB_ne_bot hB_ne_top) hBgt).2
    · rw [EInt.fin_min]
      exact min_le_min_right (EInt.fin (vW m)) hub
    · rw [EInt.fin_min, hBeq, min_assoc]

/-- Sandwich property of the full minimizing loop, first move included. -/
theorem minLoop_sandwich (G : Game)
    (rec : G.Pos → EInt → EInt → Tables → SR) (vW : MoveS → Int)
    (dNode : Nat) (p : G.Pos) (alpha0 : EInt)
    (hrec : ∀ (m : MoveS) (a b : EInt) (T' : Tables), a < b →
      min b (EInt.fin (vW m)) ≤ (rec (G.push p m) a b T').val ∧
        (rec (G.push p m) a b T').val ≤ max a (EInt.fin (vW m)))
    (beta0 : EInt) (h0 : alpha0 < beta0) (m : MoveS) (ms : List MoveS)
    (T : Tables) :
    min beta0 (EInt.fin (foldMinI vW ms (vW m))) ≤
        (minLoop G rec dNode p alpha0 (m :: ms) true EInt.top beta0 T).val ∧
      (minLoop G rec dNode p alpha0 (m :: ms) true EInt.top beta0 T).val ≤
        max alpha0 (EInt.fin (foldMinI vW ms (vW m))) := by
  rw [minLoop_eq_contMin_true]
  exact contMin_sandwich G rec vW dNode p alpha0 m ms beta0 h0
    (minLoop_inner_sandwich G rec vW dNode p alpha0 hrec beta0 h0 ms) (vW m)
    (vW m) _ beta0 EInt.top (EInt.min_top_right beta0) h0 (EInt.le_top beta0)
    (hrec m alpha0 beta0 T h0).1 (hrec m alpha0 beta0 T h0).2
    (min_le_right _ _) rfl

/-- Sandwich property of the full maximizing loop, first move included. -/
theorem maxLoop_sandwich (G : Game)
    (rec : G.Pos → EInt → EInt → Tables → SR) (vW : MoveS → Int)
    (dNode : Nat) (p : G.Pos) (beta : EInt)
    (hrec : ∀ (m : MoveS) (a b : EInt) (T' : Tables), a < b →
      min b (EInt.fin (vW m)) ≤ (rec (G.push p m) a b T').val ∧
        (rec (G.push p m) a b T').val ≤ max a (EInt.fin (vW m)))
    (alpha0 : EInt) (h0 : alpha0 < beta) (m : MoveS) (ms : List MoveS)
    (T : Tables) :
    min beta (EInt.fin (foldMaxI vW ms (vW m))) ≤
        (maxLoop G rec dNode p beta (m :: ms) true EInt.bot alpha0 T).val ∧
      (maxLoop G rec dNode p beta (m :: ms) true EInt.bot alpha0 T).val ≤
        max alpha0 (EInt.fin (foldMaxI vW ms (vW m))) := by
  rw [maxLoop_eq_contMax_true]
  exact contMax_sandwich G rec vW dNode p beta m ms alpha0 h0
    (maxLoop_inner_sandwich G rec vW dNode p beta hrec alpha0 h0 ms) (vW m)
    (vW m) _ alpha0 EInt.bot (EInt.max_bot_right alpha0) h0 (EInt.bot_le alpha0)
    (hrec m alpha0 beta T h0).1 (hrec m alpha0 beta T h0).2
    (le_max_right _ _) rfl

/- Node-level sandwich: the pruned PVS minimax against the unpruned
   full-width value. -/

theorem minimax_succ (G : Game) (d : Nat) (p : G.Pos) (isMax : Bool)
    (alpha beta : EInt) (T : Tables) :
    minimax G (d + 1) p isMax alpha beta T =
      (if G.isCheckmate p then
        ⟨if isMax then EInt.fin (-99999) else EInt.fin 99999, incNodes T, []⟩
      else if G.isStalemate p || G.isInsufficient p then
        ⟨EInt.fin 0, incNodes T, []⟩
      else if (orderMoves G p (incNodes T) (G.legal p) isMax).isEmpty then
        ⟨EInt.fin (engineEval G p), incNodes T, []⟩
      else if isMax then
        maxLoop G (fun q a b T' => minimax G d q false a b T') (d + 1) p beta
          (orderMoves G p (incNodes T) (G.legal p) isMax) true EInt.bot alpha
          (incNodes T)
      else
        minLoop G (fun q a b T' => minimax G d q true a b T') (d + 1) p alpha
          (orderMoves G p (incNodes T) (G.legal p) isMax) true EInt.top beta
          (incNodes T)) := rfl

theorem V_succ (G : Game) (d : Nat) (p : G.Pos) (isMax : Bool) :
    V G (d + 1) p isMax =
      (if G.isCheckmate p then (if isMax then -99999 else 99999)
      else if G.isStalemate p || G.isInsufficient p then 0
      else
        match G.legal p with
        | [] => engineEval G p
        | m :: ms =>
          if isMax then
            foldMaxI (fun m' => V G d (G.push p m') false) ms
              (V G d (G.push p m) false)
          else
            foldMinI (fun m' => V G d (G.push p m') true) ms
              (V G d (G.push p m) true)) := rfl

/-- The central refinement fact: for every valid window, the score returned by
    the engine's PVS alpha-beta minimax lies between the full-width value
    clamped by beta from below and by alpha from above; inside the open window
    the two agree exactly. Pruning, null-window probes and re-searches, and
    killer/history ordering never change this envelope. -/
theorem minimax_sandwich (G : Game) :
    ∀ (d : Nat) (p : G.Pos) (isMax : Bool) (alpha beta : EInt) (T : Tables),
      alpha < beta →
      min beta (EInt.fin (V G d p isMax)) ≤
          (minimax G d p isMax alpha beta T).val ∧
        (minimax G d p isMax alpha beta T).val ≤
          max alpha (EInt.fin (V G d p isMax)) := by
  intro d
  induction d with
  | zero =>
    intro p isMax alpha beta T h
    have hq : (minimax G 0 p isMax alpha beta T).val =
        max alpha (min beta (EInt.fin (trueQ G p))) :=
      quiescence_val G p alpha beta (incNodes T) h
    constructor
    · rw [hq]
      exact le_max_right _ _
    · rw [hq]
      exact max_le_max_left alpha (min_le_right _ _)
  | succ d ih =>
    intro p isMax alpha beta T h
    rw [minimax_succ]
    by_cases hmate : G.isCheckmate p = true
    · rw [if_pos hmate]
      have hV : V G (d + 1) p isMax = (if isMax then -99999 else 99999) := by
        rw [V_succ, if_pos hmate]
      rw [hV]
      cases isMax
      · exact ⟨min_le_right _ _, le_max_right _ _⟩
      · exact ⟨min_le_right _ _, le_max_right _ _⟩
    · rw [if_neg hmate]
      by_cases hsl : (G.isStalemate p || G.isInsufficient p) = true
      · rw [if_pos hsl]
        have hV : V G (d + 1) p isMax = 0 := by
          rw [V_succ, if_neg hmate, if_pos hsl]
        rw [hV]
        exact ⟨min_le_right _ _, le_max_right _ _⟩
      · rw [if_neg hsl]
        cases hl : G.legal p with
        | nil =>
          rw [if_pos (show (orderMoves G p (incNodes T) [] isMax).isEmpty = true
            from rfl)]
          have hV : V G (d + 1) p isMax = engineEval G p := by
            rw [V_succ, if_neg hmate, if_neg hsl, hl]
          rw [hV]
          exact ⟨min_le_right _ _, le_max_right _ _⟩
        | cons m' ms' =>
          have hperm : (orderMoves G p (incNodes T) (m' :: ms') isMax).Perm
              (m' :: ms') := orderMoves_perm G p (incNodes T) (m' :: ms') isMax
          cases ho : orderMoves G p (incNodes T) (m' :: ms') isMax with
          | nil =>
            rw [ho] at hperm
            exact absurd (hperm.length_eq) (by simp)
          | cons m0 ms0 =>
            rw [if_neg (by simp)]
            rw [ho] at hperm
            cases isMax with
            | true =>
              rw [if_pos rfl]
              have hV : V G (d + 1) p true =
                  foldMaxI (fun m'' => V G d (G.push p m'') false) ms'
                    (V G d (G.push p m') false) := by
                rw [V_succ, if_neg hmate, if_neg hsl, hl]
                rfl
              have hbridge :
                  EInt.fin (foldMaxI (fun m'' => V G d (G.push p m'') false) ms'
                      (V G d (G.push p m') false)) =
                    EInt.fin (foldMaxI (fun m'' => V G d (G.push p m'') false) ms0
                      (V G d (G.push p m0) false)) := by
                rw [fin_foldMaxI, fin_foldMaxI]
                have h1 : supEI (fun m'' => V G d (G.push p m'') false)
                    (m0 :: ms0) =
                      supEI (fun m'' => V G d (G.push p m'') false)
                        (m' :: ms') := supEI_perm _ hperm
                rw [supEI_cons, supEI_cons] at h1
                exact h1.symm
              rw [hV, hbridge]
              exact maxLoop_sandwich G
                (fun q a b T' => minimax G d q false a b T')
                (fun m'' => V G d (G.push p m'') false) (d + 1) p beta
                (fun m'' a b T' hab => ih (G.push p m'') false a b T' hab)
                alpha h m0 ms0 (incNodes T)
            | false =>
              rw [if_neg Bool.false_ne_true]
              have hV : V G (d + 1) p false =
                  foldMinI (fun m'' => V G d (G.push p m'') true) ms'
                    (V G d (G.push p m') true) := by
                rw [V_succ, if_neg hmate, if_neg hsl, hl]
                rfl
              have hbridge :
                  EInt.fin (foldMinI (fun m'' => V G d (G.push p m'') true) ms'
                      (V G d (G.push p m') true)) =
                    EInt.fin (foldMinI (fun m'' => V G d (G.push p m'') true) ms0
                      (V G d (G.push p m0) true)) := by
                rw [fin_foldMinI, fin_foldMinI]
                have h1 : infEI (fun m'' => V G d (G.push p m'') true)
                    (m0 :: ms0) =
                      infEI (fun m'' => V G d (G.push p m'') true)
                        (m' :: ms') := infEI_perm _ hperm
                rw [infEI_cons, infEI_cons] at h1
                exact h1.symm
              rw [hV, hbridge]
              exact minLoop_sandwich G
                (fun q a b T' => minimax G d q true a b T')
                (fun m'' => V G d (G.push p m'') true) (d + 1) p alpha
                (fun m'' a b T' hab => ih (G.push p m'') true a b T' hab)
                beta h m0 ms0 (incNodes T)

/-- Exactness inside the window: when the full-width value lies strictly
    between alpha and beta, the pruned PVS search returns it exactly. -/
theorem minimax_exact (G : Game) (d : Nat) (p : G.Pos) (isMax : Bool)
    (alpha beta : EInt) (T : Tables)
    (h1 : alpha < EInt.fin (V G d p isMax))
    (h2 : EInt.fin (V G d p isMax) < beta) :
    (minimax G d p isMax alpha beta T).val = EInt.fin (V G d p isMax) := by
  have h := minimax_sandwich G d p isMax alpha beta T (h1.trans h2)
  rw [min_eq_right h2.le, max_eq_right h1.le] at h
  exact le_antisymm h.2 h.1

/- Root equivalence: the pruned root loops of `_search_move` select the same
   move and reach the same final bound as the unpruned full-width root loops
   over the same ordered move list. -/

theorem rootMaxLoop_full (G : Game) (d : Nat) (p : G.Pos) :
    ∀ (ms : List MoveS) (best : Option MoveS) (alpha : EInt) (T : Tables),
      alpha ≠ EInt.top →
      (rootMaxLoop G d p ms best alpha EInt.top T).1 =
          (fullRootMax G d p ms best alpha).1 ∧
        (rootMaxLoop G d p ms best alpha EInt.top T).2.1 =
          (fullRootMax G d p ms best alpha).2 := by
  intro ms
  induction ms with
  | nil => intro best alpha T halpha; exact ⟨rfl, rfl⟩
  | cons m ms ih =>
    intro best alpha T halpha
    have halpha' : alpha < EInt.top :=
      lt_of_le_of_ne (EInt.le_top alpha) halpha
    have hs := minimax_sandwich G d (G.push p m) false alpha EInt.top T halpha'
    rw [EInt.min_top_left] at hs
    have e1 : (rootMaxLoop G d p (m :: ms) best alpha EInt.top T).1 =
        (rootMaxLoop G d p ms
          (if alpha < (minimax G d (G.push p m) false alpha EInt.top T).val
            then some m else best)
          (if alpha < (minimax G d (G.push p m) false alpha EInt.top T).val
            then (minimax G d (G.push p m) false alpha EInt.top T).val
            else alpha)
          EInt.top (minimax G d (G.push p m) false alpha EInt.top T).tables).1 :=
      rfl
    have e2 : (rootMaxLoop G d p (m :: ms) best alpha EInt.top T).2.1 =
        (rootMaxLoop G d p ms
          (if alpha < (minimax G d (G.push p m) false alpha EInt.top T).val
            then some m else best)
          (if alpha < (minimax G d (G.push p m) false alpha EInt.top T).val
            then (minimax G d (G.push p m) false alpha EInt.top T).val
            else alpha)
          EInt.top
          (minimax G d (G.push p m) false alpha EInt.top T).tables).2.1 :=
      rfl
    have f1 : fullRootMax G d p (m :: ms) best alpha =
        (if alpha < EInt.fin (V G d (G.push p m) false) then
          fullRootMax G d p ms (some m) (EInt.fin (V G d (G.push p m) false))
        else fullRootMax G d p ms best alpha) := rfl
    rcases lt_or_le alpha (EInt.fin (V G d (G.push p m) false)) with hav | hav
    · have hsv : (minimax G d (G.push p m) false alpha EInt.top T).val =
          EInt.fin (V G d (G.push p m) false) := by
        refine le_antisymm ?_ hs.1
        have h2 := hs.2
        rwa [max_eq_right hav.le] at h2
      rw [e1, e2, f1, hsv, if_pos hav, if_pos hav, if_pos hav]
      exact ih (some m) (EInt.fin (V G d (G.push p m) false)) _ (by
        intro hc; exact EInt.noConfusion hc)
    · have hns : ¬ alpha < (minimax G d (G.push p m) false alpha EInt.top T).val := by
        intro hlt
        have h2 := hs.2
        rw [max_eq_left hav] at h2
        exact absurd (lt_of_lt_of_le hlt h2) (lt_irrefl alpha)
      rw [e1, e2, f1, if_neg hns, if_neg hns, if_neg (not_lt_of_le hav)]
      exact ih best alpha _ halpha

theorem rootMinLoop_full (G : Game) (d : Nat) (p : G.Pos) :
    ∀ (ms : List MoveS) (best : Option MoveS) (beta : EInt) (T : Tables),
      beta ≠ EInt.bot →
      (rootMinLoop G d p ms best EInt.bot beta T).1 =
          (fullRootMin G d p ms best beta).1 ∧
        (rootMinLoop G d p ms best EInt.bot beta T).2.1 =
          (fullRootMin G d p ms best beta).2 := by
  intro ms
  induction ms with
  | nil => intro best beta T hbeta; exact ⟨rfl, rfl⟩
  | cons m ms ih =>
    intro best beta T hbeta
    have hbeta' : EInt.bot < beta :=
      lt_of_le_of_ne (EInt.bot_le beta) (fun h => hbeta h.symm)
    have hs := minimax_sandwich G d (G.push p m) true EInt.bot beta T hbeta'
    rw [EInt.max_bot_left] at hs
    have e1 : (rootMinLoop G d p (m :: ms) best EInt.bot beta T).1 =
        (rootMinLoop G d p ms
          (if (minimax G d (G.push p m) true EInt.bot beta T).val < beta
            then some m else best)
          EInt.bot
          (if (minimax G d (G.push p m) true EInt.bot beta T).val < beta
            then (minimax G d (G.push p m) true EInt.bot beta T).val
            else beta)
          (minimax G d (G.push p m) true EInt.bot beta T).tables).1 :=
      rfl
    have e2 : (rootMinLoop G d p (m :: ms) best EInt.bot beta T).2.1 =
        (rootMinLoop G d p ms
          (if (minimax G d (G.push p m) true EInt.bot beta T).val < beta
            then some m else best)
          EInt.bot
          (if (minimax G d (G.push p m) true EInt.bot beta T).val < beta
            then (minimax G d (G.push p m) true EInt.bot beta T).val
            else beta)
          (minimax G d (G.push p m) true EInt.bot beta T).tables).2.1 :=
      rfl
    have f1 : fullRootMin G d p (m :: ms) best beta =
        (if EInt.fin (V G d (G.push p m) true) < beta then
          fullRootMin G d p ms (some m) (EInt.fin (V G d (G.push p m) true))
        else fullRootMin G d p ms best beta) := rfl
    rcases lt_or_le (EInt.fin (V G d (G.push p m) true)) beta with hav | hav
    · have hsv : (minimax G d (G.push p m) true EInt.bot beta T).val =
          EInt.fin (V G d (G.push p m) true) := by
        refine le_antisymm hs.2 ?_
        have h1 := hs.1
        rwa [min_eq_right hav.le] at h1
      rw [e1, e2, f1, hsv, if_pos hav, if_pos hav, if_pos hav]
      exact ih (some m) (EInt.fin (V G d (G.push p m) true)) _ (by
        intro hc; exact EInt.noConfusion hc)
    · have hns : ¬ (minimax G d (G.push p m) true EInt.bot beta T).val < beta := by
        intro hlt
        have h1 := hs.1
        rw [min_eq_left hav] at h1
        exact absurd (lt_of_le_of_lt h1 hlt) (lt_irrefl beta)
      rw [e1, e2, f1, if_neg hns, if_neg hns, if_neg (not_lt_of_le hav)]
      exact ih best beta _ hbeta

/-- The pruned `_search_move` returns the same move and the same final bounds
    as the unpruned full-width root search over the same ordered move list. -/
theorem searchMove_eq_full (G : Game) (d : Nat) (pc : Bool) (p : G.Pos)
    (T : Tables) :
    (searchMove G d pc p T).move = (fullSearchMove G d pc p T).1 ∧
      (searchMove G d pc p T).alphaOut = (fullSearchMove G d pc p T).2.1 ∧
      (searchMove G d pc p T).betaOut = (fullSearchMove G d pc p T).2.2 := by
  cases pc with
  | true =>
    have h := rootMaxLoop_full G (d - 1) p
      (orderMoves G p T (G.legal p) true) none EInt.bot T
      (fun hc => EInt.noConfusion hc)
    rw [searchMove, fullSearchMove]
    rw [if_pos rfl, if_pos rfl]
    refine ⟨?_, ?_, rfl⟩
    · dsimp only
      rw [h.1]
    · dsimp only
      rw [h.2]
  | false =>
    have h := rootMinLoop_full G (d - 1) p
      (orderMoves G p T (G.legal p) false) none EInt.top T
      (fun hc => EInt.noConfusion hc)
    rw [searchMove, fullSearchMove]
    rw [if_neg Bool.false_ne_true, if_neg Bool.false_ne_true]
    refine ⟨?_, rfl, ?_⟩
    · dsimp only
      rw [h.1]
    · dsimp only
      rw [h.2]

/- Killer-table and history-table invariants. -/

/-- The killer table holds at most two entries and never the same move twice
    (the `None` placeholders are not moves). -/
def KillerInv (l : List (Option MoveS)) : Prop :=
  l.length ≤ 2 ∧ (l.filterMap id).Nodup

instance (l : List (Option MoveS)) : Decidable (KillerInv l) :=
  inferInstanceAs (Decidable (_ ∧ _))

/-- Tables evolution invariant: the killer invariant is preserved and every
    history entry is monotonically non-decreasing. -/
def Pres (T T' : Tables) : Prop :=
  (KillerInv T.killers → KillerInv T'.killers) ∧
    ∀ k, dictGet T.history k ≤ dictGet T'.history k

theorem Pres.rfl (T : Tables) : Pres T T := ⟨id, fun _ => le_refl _⟩

theorem Pres.trans {T1 T2 T3 : Tables} (h1 : Pres T1 T2) (h2 : Pres T2 T3) :
    Pres T1 T3 :=
  ⟨fun h => h2.1 (h1.1 h), fun k => le_trans (h1.2 k) (h2.2 k)⟩

theorem pres_incNodes (T : Tables) : Pres T (incNodes T) :=
  ⟨id, fun _ => le_refl _⟩

theorem dictGet_dictSet_self (l : List ((Nat × Nat) × Int)) (k : Nat × Nat)
    (v : Int) : dictGet (dictSet l k v) k = v := by
  induction l with
  | nil => simp [dictSet, dictGet]
  | cons kv t ih =>
    obtain ⟨k', v'⟩ := kv
    rw [dictSet]
    split
    · next he => simp [dictGet]
    · next he => rw [dictGet, if_neg he, ih]

theorem dictGet_dictSet_other (l : List ((Nat × Nat) × Int)) (k k' : Nat × Nat)
    (v : Int) (h : k ≠ k') : dictGet (dictSet l k v) k' = dictGet l k' := by
  induction l with
  | nil => simp [dictSet, dictGet, h]
  | cons kv t ih =>
    obtain ⟨k0, v0⟩ := kv
    rw [dictSet]
    split
    · next he =>
      subst he
      rw [dictGet, if_neg h, dictGet, if_neg h]
    · next he => rw [dictGet, dictGet, ih]

/-- One history update adds exactly depth squared to the updated key and
    leaves every other key unchanged. -/
theorem updateHistory_get (T : Tables) (m : MoveS) (dep : Nat) :
    dictGet (updateHistory T m dep).history (m.fromSq, m.toSq) =
        dictGet T.history (m.fromSq, m.toSq) + (dep : Int) * (dep : Int) ∧
      ∀ k, k ≠ (m.fromSq, m.toSq) →
        dictGet (updateHistory T m dep).history k = dictGet T.history k := by
  constructor
  · exact dictGet_dictSet_self _ _ _
  · intro k hk
    exact dictGet_dictSet_other _ _ _ _ (fun h => hk h.symm)

theorem pres_updateHistory (T : Tables) (m : MoveS) (dep : Nat) :
    Pres T (updateHistory T m dep) := by
  refine ⟨id, fun k => ?_⟩
  by_cases hk : k = (m.fromSq, m.toSq)
  · subst hk
    rw [(updateHistory_get T m dep).1]
    have : (0 : Int) ≤ (dep : Int) * (dep : Int) := mul_self_nonneg _
    omega
  · rw [(updateHistory_get T m dep).2 k hk]

theorem killerInv_updateKiller {T : Tables} (m : MoveS)
    (h : KillerInv T.killers) : KillerInv (updateKiller T m).killers := by
  rw [updateKiller]
  split
  · exact h
  · next hmem =>
    dsimp only
    have hfm : (some m :: T.killers).filterMap id = m :: T.killers.filterMap id := by
      simp
    have hnd : (m :: T.killers.filterMap id).Nodup := by
      refine List.nodup_cons.mpr ⟨?_, h.2⟩
      intro hc
      rcases List.mem_filterMap.mp hc with ⟨a, ha, hae⟩
      cases a with
      | none => exact Option.noConfusion hae
      | some b =>
        have : b = m := by simpa using hae
        subst this
        exact hmem ha
    split
    · next hlen =>
      constructor
      · rw [List.length_dropLast]
        have := h.1
        simp only [List.length_cons]
        omega
      · have hnd2 : ((some m :: T.killers).filterMap id).Nodup := by
          rw [hfm]; exact hnd
        exact hnd2.sublist ((List.dropLast_sublist _).filterMap id)
    · next hlen =>
      constructor
      · simp only [List.length_cons] at hlen ⊢
        omega
      · rw [hfm]; exact hnd

theorem pres_updateKiller (T : Tables) (m : MoveS) :
    Pres T (updateKiller T m) := by
  refine ⟨fun h => killerInv_updateKiller m h, fun k => ?_⟩
  rw [updateKiller]
  split
  · exact le_refl _
  · exact le_refl _

theorem pres_qloopF (G : Game) (rec : G.Pos → EInt → EInt → Tables → SR)
    (hrec : ∀ q a b T', Pres T' (rec q a b T').tables) (p : G.Pos) :
    ∀ ms alpha beta T, Pres T (qloopF G rec p ms alpha beta T).tables := by
  intro ms
  induction ms with
  | nil => intro alpha beta T; exact Pres.rfl T
  | cons m ms ih =>
    intro alpha beta T
    rw [qloopF]
    split
    · exact ih alpha beta T
    · split
      · exact ih alpha beta T
      · dsimp only
        split
        · exact hrec _ _ _ _
        · exact (hrec _ _ _ _).trans (ih _ _ _)

theorem pres_qF (G : Game) :
    ∀ n p alpha beta T, Pres T (qF G n p alpha beta T).tables := by
  intro n
  induction n with
  | zero => intro p alpha beta T; exact Pres.rfl T
  | succ n ih =>
    intro p alpha beta T
    rw [qF]
    split
    · exact pres_incNodes T
    · exact (pres_incNodes T).trans
        (pres_qloopF G (qF G n) (fun q a b T' => ih q a b T') p _ _ _ _)

theorem pres_maxLoop (G : Game) (rec : G.Pos → EInt → EInt → Tables → SR)
    (hrec : ∀ q a b T', Pres T' (rec q a b T').tables) (dNode : Nat)
    (p : G.Pos) (beta : EInt) :
    ∀ ms isFirst maxEval alpha T,
      Pres T (maxLoop G rec dNode p beta ms isFirst maxEval alpha T).tables := by
  intro ms
  induction ms with
  | nil => intro isFirst maxEval alpha T; exact Pres.rfl T
  | cons m ms ih =>
    intro isFirst maxEval alpha T
    rw [maxLoop]
    split
    · split
      · exact ((hrec _ _ _ _).trans (pres_updateKiller _ m)).trans
          (pres_updateHistory _ m dNode)
      · exact (hrec _ _ _ _).trans (ih _ _ _ _)
    · dsimp only
      split <;> split <;>
        first
        | exact (((hrec _ _ _ _).trans (hrec _ _ _ _)).trans
            (pres_updateKiller _ m)).trans (pres_updateHistory _ m dNode)
        | exact ((hrec _ _ _ _).trans (hrec _ _ _ _)).trans (ih _ _ _ _)
        | exact ((hrec _ _ _ _).trans (pres_updateKiller _ m)).trans
            (pres_updateHistory _ m dNode)
        | exact (hrec _ _ _ _).trans (ih _ _ _ _)

theorem pres_minLoop (G : Game) (rec : G.Pos → EInt → EInt → Tables → SR)
    (hrec : ∀ q a b T', Pres T' (rec q a b T').tables) (dNode : Nat)
    (p : G.Pos) (alpha : EInt) :
    ∀ ms isFirst minEval beta T,
      Pres T (minLoop G rec dNode p alpha ms isFirst minEval beta T).tables := by
  intro ms
  induction ms with
  | nil => intro isFirst minEval beta T; exact Pres.rfl T
  | cons m ms ih =>
    intro isFirst minEval beta T
    rw [minLoop]
    split
    · split
      · exact ((hrec _ _ _ _).trans (pres_updateKiller _ m)).trans
          (pres_updateHistory _ m dNode)
      · exact (hrec _ _ _ _).trans (ih _ _ _ _)
    · dsimp only
      split <;> split <;>
        first
        | exact (((hrec _ _ _ _).trans (hrec _ _ _ _)).trans
            (pres_updateKiller _ m)).trans (pres_updateHistory _ m dNode)
        | exact ((hrec _ _ _ _).trans (hrec _ _ _ _)).trans (ih _ _ _ _)
        | exact ((hrec _ _ _ _).trans (pres_updateKiller _ m)).trans
            (pres_updateHistory _ m dNode)
        | exact (hrec _ _ _ _).trans (ih _ _ _ _)

theorem pres_minimax (G : Game) :
    ∀ d p isMax alpha beta T,
      Pres T (minimax G d p isMax alpha beta T).tables := by
  intro d
  induction d with
  | zero =>
    intro p isMax alpha beta T
    exact (pres_incNodes T).trans (pres_qF G _ p alpha beta _)
  | succ d ih =>
    intro p isMax alpha beta T
    rw [minimax_succ]
    split
    · exact pres_incNodes T
    · split
      · exact pres_incNodes T
      · split
        · exact pres_incNodes T
        · split
          · exact (pres_incNodes T).trans
              (pres_maxLoop G _ (fun q a b T' => ih q false a b T') _ p _ _ _ _ _ _)
          · exact (pres_incNodes T).trans
              (pres_minLoop G _ (fun q a b T' => ih q true a b T') _ p _ _ _ _ _ _)

theorem pres_rootMaxLoop (G : Game) (d : Nat) (p : G.Pos) :
    ∀ ms best alpha beta T,
      Pres T (rootMaxLoop G d p ms best alpha beta T).2.2.1 := by
  intro ms
  induction ms with
  | nil => intro best alpha beta T; exact Pres.rfl T
  | cons m ms ih =>
    intro best alpha beta T
    exact (pres_minimax G d _ false alpha beta T).trans (ih _ _ _ _)

theorem pres_rootMinLoop (G : Game) (d : Nat) (p : G.Pos) :
    ∀ ms best alpha beta T,
      Pres T (rootMinLoop G d p ms best alpha beta T).2.2.1 := by
  intro ms
  induction ms with
  | nil => intro best alpha beta T; exact Pres.rfl T
  | cons m ms ih =>
    intro best alpha beta T
    exact (pres_minimax G d _ true alpha beta T).trans (ih _ _ _ _)

theorem pres_searchMove (G : Game) (d : Nat) (pc : Bool) (p : G.Pos)
    (T : Tables) : Pres T (searchMove G d pc p T).tables := by
  rw [searchMove]
  split
  · exact pres_rootMaxLoop G _ p _ _ _ _ _
  · exact pres_rootMinLoop G _ p _ _ _ _ _

theorem pres_idGo
    (step : Nat → Tables → Except Unit (Option MoveS × Tables × List Ev))
    (hstep : ∀ d T' r, step d T' = Except.ok r → Pres T' r.2.1) :
    ∀ n cur best T acc, Pres T (idGo step cur n best T acc).2.1 := by
  intro n
  induction n with
  | zero => intro cur best T acc; exact Pres.rfl T
  | succ n ih =>
    intro cur best T acc
    rw [idGo]
    cases hs : step cur T with
    | ok r => exact (hstep _ _ _ hs).trans (ih _ _ _ _)
    | error e => exact Pres.rfl T

/- Bounds: every score the evaluation or the full-width search can produce is
   within the checkmate sentinels. -/

theorem sEval_bound (G : Game) (p : G.Pos) :
    -99999 ≤ sEval G p ∧ sEval G p ≤ 99999 := by
  rw [sEval]
  split
  · split <;> omega
  · split
    · omega
    · have := G.rawEval_bound p
      omega

theorem engineEval_bound (G : Game) (p : G.Pos) :
    -99999 ≤ engineEval G p ∧ engineEval G p ≤ 99999 := by
  have := sEval_bound G p
  rw [engineEval]
  omega

theorem foldr_max_bound (g : MoveS → Int) (lo hi : Int) :
    ∀ (l : List MoveS) (e : Int), lo ≤ e → e ≤ hi →
      (∀ m ∈ l, lo ≤ g m ∧ g m ≤ hi) →
      lo ≤ l.foldr (fun m acc => max (g m) acc) e ∧
        l.foldr (fun m acc => max (g m) acc) e ≤ hi := by
  intro l
  induction l with
  | nil => intro e h1 h2 _; exact ⟨h1, h2⟩
  | cons m ms ih =>
    intro e h1 h2 hall
    have hms := ih e h1 h2 (fun m' hm' => hall m' (List.mem_cons_of_mem m hm'))
    have hm := hall m (List.mem_cons_self m ms)
    simp only [List.foldr_cons]
    constructor
    · exact le_trans hms.1 (le_max_right _ _)
    · exact max_le hm.2 hms.2

theorem tQF_bound (G : Game) :
    ∀ n p, -99999 ≤ tQF G n p ∧ tQF G n p ≤ 99999 := by
  intro n
  induction n with
  | zero => intro p; rw [tQF]; omega
  | succ n ih =>
    intro p
    rw [tQF]
    refine foldr_max_bound _ _ _ _ _ (engineEval_bound G p).1
      (engineEval_bound G p).2 ?_
    intro m _
    have := ih (G.push p m)
    omega

theorem trueQ_bound (G : Game) (p : G.Pos) :
    -99999 ≤ trueQ G p ∧ trueQ G p ≤ 99999 := tQF_bound G _ p

theorem foldMaxI_bound (g : MoveS → Int) (lo hi : Int) :
    ∀ (l : List MoveS) (e : Int), lo ≤ e → e ≤ hi →
      (∀ m ∈ l, lo ≤ g m ∧ g m ≤ hi) →
      lo ≤ foldMaxI g l e ∧ foldMaxI g l e ≤ hi := by
  intro l
  induction l with
  | nil => intro e h1 h2 _; exact ⟨h1, h2⟩
  | cons m ms ih =>
    intro e h1 h2 hall
    rw [foldMaxI_cons]
    have hm := hall m (List.mem_cons_self m ms)
    exact ih (max e (g m)) (le_trans h1 (le_max_left _ _)) (max_le h2 hm.2)
      (fun m' hm' => hall m' (List.mem_cons_of_mem m hm'))

theorem foldMinI_bound (g : MoveS → Int) (lo hi : Int) :
    ∀ (l : List MoveS) (e : Int), lo ≤ e → e ≤ hi →
      (∀ m ∈ l, lo ≤ g m ∧ g m ≤ hi) →
      lo ≤ foldMinI g l e ∧ foldMinI g l e ≤ hi := by
  intro l
  induction l with
  | nil => intro e h1 h2 _; exact ⟨h1, h2⟩
  | cons m ms ih =>
    intro e h1 h2 hall
    rw [foldMinI_cons]
    have hm := hall m (List.mem_cons_self m ms)
    exact ih (min e (g m)) (le_min h1 hm.1) (le_trans (min_le_left _ _) h2)
      (fun m' hm' => hall m' (List.mem_cons_of_mem m hm'))

theorem V_bound (G : Game) :
    ∀ d p isMax, -99999 ≤ V G d p isMax ∧ V G d p isMax ≤ 99999 := by
  intro d
  induction d with
  | zero => intro p isMax; exact trueQ_bound G p
  | succ d ih =>
    intro p isMax
    rw [V_succ]
    split
    · split <;> omega
    · split
      · omega
      · cases hl : G.legal p with
        | nil => exact engineEval_bound G p
        | cons m ms =>
          cases isMax
          · dsimp only
            refine foldMinI_bound _ _ _ ms _ (ih (G.push p m) true).1
              (ih (G.push p m) true).2 ?_
            intro m' _
            exact ih (G.push p m') true
          · dsimp only
            refine foldMaxI_bound _ _ _ ms _ (ih (G.push p m) false).1
              (ih (G.push p m) false).2 ?_
            intro m' _
            exact ih (G.push p m') false

/-- A checkmated position with White to move has full-width value 99999 when
    searched as the minimizing (White) side of a Black root. -/
theorem V_mate_white (G : Game) (q : G.Pos) (hmate : G.isCheckmate q = true)
    (hturn : G.turn q = true) : ∀ d, V G d q false = 99999 := by
  intro d
  cases d with
  | zero =>
    show trueQ G q = 99999
    rw [trueQ_eq]
    have h1 : qCands G q = [] := by
      rw [qCands, G.mate_no_legal q hmate]
      rfl
    rw [h1]
    show engineEval G q = 99999
    rw [engineEval, sEval, if_pos hmate, if_pos hturn]
    omega
  | succ d =>
    rw [V_succ, if_pos hmate]
    rfl

/-- A checkmated position with Black to move has full-width value -99999 when
    searched as the maximizing side of a White root. -/
theorem V_mate_black (G : Game) (q : G.Pos) (hmate : G.isCheckmate q = true)
    (hturn : G.turn q = false) : ∀ d, V G d q true = -99999 := by
  intro d
  cases d with
  | zero =>
    show trueQ G q = -99999
    rw [trueQ_eq]
    have h1 : qCands G q = [] := by
      rw [qCands, G.mate_no_legal q hmate]
      rfl
    rw [h1]
    show engineEval G q = -99999
    rw [engineEval, sEval, if_pos hmate, if_neg (by rw [hturn]; exact Bool.false_ne_true)]
  | succ d =>
    rw [V_succ, if_pos hmate]
    rfl

/- Evaluation layer: src/static_eval.py translated over a board view. The
   view carries the concrete piece placement (square 0..63 to optional
   (color, piece kind), colors true = White, kinds 1..6 as in python-chess)
   plus the answers of the external game-rules queries the evaluation
   consumes: per-side check status, per-side legal-move counts, and the
   terminal predicates. -/

structure BoardV where
  placement : Nat → Option (Bool × Nat)
  turn : Bool
  checkW : Bool
  checkB : Bool
  legalW : Nat
  legalB : Nat
  checkmateF : Bool
  stalemateF : Bool
  insufficientF : Bool

/-- `board.is_check()`: is the side to move in check. -/
def isCheckV (b : BoardV) : Bool := if b.turn then b.checkW else b.checkB

/-- `len(list(board.legal_moves))`: number of legal moves of the side to
    move. -/
def legalCountV (b : BoardV) : Nat := if b.turn then b.legalW else b.legalB

/-- `board.king(color)`: the square of that side's king, the highest such
    square as python-chess's most-significant-bit lookup returns. -/
def kingSq (b : BoardV) (c : Bool) : Option Nat :=
  (List.range 64).foldl
    (fun acc s => if b.placement s = some (c, 6) then some s else acc) none

def PAWN_TABLE : List Int :=
  [0, 0, 0, 0, 0, 0, 0, 0,
   50, 50, 50, 50, 50, 50, 50, 50,
   10, 10, 20, 30, 30, 20, 10, 10,
   5, 5, 10, 25, 25, 10, 5, 5,
   0, 0, 0, 20, 20, 0, 0, 0,
   5, -5, -10, 0, 0, -10, -5, 5,
   5, 10, 10, -20, -20, 10, 10, 5,
   0, 0, 0, 0, 0, 0, 0, 0]

def KNIGHT_TABLE : List Int :=
  [-50, -40, -30, -30, -30, -30, -40, -50,
   -40, -20, 0, 0, 0, 0, -20, -40,
   -30, 0, 10, 15, 15, 10, 0, -30,
   -30, 5, 15, 20, 20, 15, 5, -30,
   -30, 0, 15, 20, 20, 15, 0, -30,
   -30, 5, 10, 15, 15, 10, 5, -30,
   -40, -20, 0, 5, 5, 0, -20, -40,
   -50, -40, -30, -30, -30, -30, -40, -50]

def BISHOP_TABLE : List Int :=
  [-20, -10, -10, -10, -10, -10, -10, -20,
   -10, 0, 0, 0, 0, 0, 0, -10,
   -10, 0, 5, 10, 10, 5, 0, -10,
   -10, 5, 5, 10, 10, 5, 5, -10,
   -10, 0, 10, 10, 10, 10, 0, -10,
   -10, 10, 10, 10, 10, 10, 10, -10,
   -10, 5, 0, 0, 0, 0, 5, -10,
   -20, -10, -10, -10, -10, -10, -10, -20]

def ROOK_TABLE : List Int :=
  [0, 0, 0, 0, 0, 0, 0, 0,
   5, 10, 10, 10, 10, 10, 10, 5,
   -5, 0, 0, 0, 0, 0, 0, -5,
   -5, 0, 0, 0, 0, 0, 0, -5,
   -5, 0, 0, 0, 0, 0, 0, -5,
   -5, 0, 0, 0, 0, 0, 0, -5,
   -5, 0, 0, 0, 0, 0, 0, -5,
   0, 0, 0, 5, 5, 0, 0, 0]

def QUEEN_TABLE : List Int :=
  [-20, -10, -10, -5, -5, -10, -10, -20,
   -10, 0, 0, 0, 0, 0, 0, -10,
   -10, 0, 5, 5, 5, 5, 0, -10,
   -5, 0, 5, 5, 5, 5, 0, -5,
   0, 0, 5, 5, 5, 5, 0, -5,
   -10, 5, 5, 5, 5, 5, 0, -10,
   -10, 0, 5, 0, 0, 0, 0, -10,
   -20, -10, -10, -5, -5, -10, -10, -20]

def KING_TABLE_MIDDLE : List Int :=
  [-30, -40, -40, -50, -50, -40, -40, -30,
   -30, -40, -40, -50, -50, -40, -40, -30,
   -30, -40, -40, -50, -50, -40, -40, -30,
   -30, -40, -40, -50, -50, -40, -40, -30,
   -20, -30, -30, -40, -40, -30, -30, -20,
   -10, -20, -20, -20, -20, -20, -20, -10,
   20, 20, 0, 0, 0, 0, 20, 20,
   20, 30, 10, 0, 0, 10, 30, 20]

def KING_TABLE_END : List Int :=
  [-50, -40, -30, -20, -20, -30, -40, -50,
   -30, -20, -10, 0, 0, -10, -20, -30,
   -30, -10, 20, 30, 30, 20, -10, -30,
   -30, -10, 30, 40, 40, 30, -10, -30,
   -30, -10, 30, 40, 40, 30, -10, -30,
   -30, -10, 20, 30, 30, 20, -10, -30,
   -30, -30, 0, 0, 0, 0, -30, -30,
   -50, -30, -30, -30, -30, -30, -30, -50]

/-- Python `table[square]` on a 64-entry list. -/
def tableAt (t : List Int) (sq : Nat) : Int := t.getD sq 0

/-- `static_eval._flip_table`. -/
def flipTable (t : List Int) : List Int :=
  (List.range 64).map (fun i => t.getD (63 - i) 0)

/-- `len(board.pieces(piece_type, color))`. -/
def piecesCount (b : BoardV) (t : Nat) (c : Bool) : Nat :=
  ((List.range 64).filter (fun s => b.placement s = some (c, t))).length

/-- `static_eval._is_endgame`: no queens on the board and at most two rooks. -/
def isEndgame (b : BoardV) : Bool :=
  decide (piecesCount b 5 true + piecesCount b 5 false = 0) &&
    decide (piecesCount b 4 true + piecesCount b 4 false ≤ 2)

/-- `static_eval._get_piece_square_value`. -/
def getPieceSquareValue (piece : Bool × Nat) (square : Nat) (isEnd : Bool) :
    Int :=
  let t0 : Option (List Int) :=
    if piece.2 = 1 then some PAWN_TABLE
    else if piece.2 = 2 then some KNIGHT_TABLE
    else if piece.2 = 3 then some BISHOP_TABLE
    else if piece.2 = 4 then some ROOK_TABLE
    else if piece.2 = 5 then some QUEEN_TABLE
    else if piece.2 = 6 then
      some (if isEnd then KING_TABLE_END else KING_TABLE_MIDDLE)
    else none
  match t0 with
  | none => 0
  | some t => tableAt (if piece.1 then t else flipTable t) square

/-- `static_eval._evaluate_material`. -/
def evaluateMaterial (b : BoardV) : Int :=
  [1, 2, 3, 4, 5].foldl
    (fun acc t =>
      acc + ((piecesCount b t true : Int) - (piecesCount b t false : Int)) *
        pieceValue t) 0

/-- `static_eval._evaluate_position`. -/
def evaluatePosition (b : BoardV) (isEnd : Bool) : Int :=
  (List.range 64).foldl
    (fun acc s =>
      match b.placement s with
      | some pc => acc + getPieceSquareValue pc s isEnd
      | none => acc) 0

/-- `static_eval._evaluate_mobility`, with its board mutation made explicit:
    count the side to move's legal moves, set the turn to Black and count
    again, then set the turn to White (the source comment says "Reset to
    original turn" but the code hard-codes White). -/
def evaluateMobility (b : BoardV) : Int × BoardV :=
  let whiteMoves := legalCountV b
  let b1 : BoardV := { b with turn := false }
  let blackMoves := legalCountV b1
  let b2 : BoardV := { b1 with turn := true }
  (((whiteMoves : Int) - (blackMoves : Int)) * 2, b2)

/-- `static_eval._evaluate_pawn_structure`: doubled-pawn penalties per file,
    then isolated-pawn penalties per pawn. -/
def evaluatePawnStructure (b : BoardV) : Int :=
  let doubled :=
    (List.range 8).foldl
      (fun acc f =>
        let wp := ((List.range 64).filter
          (fun sq => decide (sq % 8 = f) &&
            decide (b.placement sq = some (true, 1)))).length
        let bp := ((List.range 64).filter
          (fun sq => decide (sq % 8 = f) &&
            decide (b.placement sq = some (false, 1)))).length
        let acc1 := if 1 < wp then acc - 20 * ((wp : Int) - 1) else acc
        if 1 < bp then acc1 + 20 * ((bp : Int) - 1) else acc1) 0
  let isolated :=
    (List.range 64).foldl
      (fun acc sq =>
        match b.placement sq with
        | some pc =>
          if pc.2 = 1 then
            let f := sq % 8
            let hasAdj := (List.range 64).any
              (fun sq' =>
                ((decide (1 ≤ f) && decide (sq' % 8 = f - 1)) ||
                    decide (sq' % 8 = f + 1)) &&
                  (match b.placement sq' with
                   | some pc' => decide (pc'.2 = 1) && decide (pc'.1 = pc.1)
                   | none => false))
            if hasAdj then acc
            else if pc.1 then acc - 15 else acc + 15
          else acc
        | none => acc) 0
  doubled + isolated

/-- Python `sq in [a, b]` membership for an optional square. -/
def inSquares2 (o : Option Nat) (x y : Nat) : Bool :=
  match o with
  | some s => decide (s = x) || decide (s = y)
  | none => false

/-- `static_eval._evaluate_king_safety`: castled-square bonus of 20 per side
    and a 10-point adjustment on `board.is_check()` inside each side's block;
    each block is guarded by Python truthiness of the king square (`None` and
    square 0 = a1 are falsy). G1 = 6, C1 = 2, G8 = 62, C8 = 58. -/
def evaluateKingSafety (b : BoardV) : Int :=
  (if optTruthy (kingSq b true) then
    (if inSquares2 (kingSq b true) 6 2 then 20 else 0) +
      (if isCheckV b then -10 else 0)
  else 0) +
  (if optTruthy (kingSq b false) then
    (if inSquares2 (kingSq b false) 62 58 then -20 else 0) +
      (if isCheckV b then 10 else 0)
  else 0)

/-- `static_eval.evaluate_board`: terminal sentinels, then the five-term sum,
    threading the board state through the mobility term's mutation. -/
def evaluateBoardSt (b : BoardV) : Int × BoardV :=
  if b.checkmateF then ((if b.turn then -99999 else 99999), b)
  else if b.stalemateF || b.insufficientF then (0, b)
  else
    let isEnd := isEndgame b
    let materialScore := evaluateMaterial b
    let positionalScore := evaluatePosition b isEnd
    let mr := evaluateMobility b
    let pawnScore := evaluatePawnStructure mr.2
    let kingScore := evaluateKingSafety mr.2
    (materialScore + positionalScore + mr.1 + pawnScore + kingScore, mr.2)

/-- `NV_chess_engine_V2.evaluate_board(player_color)`: negate the White
    perspective score when evaluating for Black (the default). -/
def NVevaluateBoard (b : BoardV) (playerWhite : Bool) : Int × BoardV :=
  let r := evaluateBoardSt b
  ((if playerWhite then r.1 else -r.1), r.2)

/-- Once the running alpha has reached the greatest achievable value, the
    full-width root loop changes nothing further. -/
theorem fullRootMax_no_improve (G : Game) (d : Nat) (p : G.Pos) (c : Int) :
    ∀ ms best, (∀ m ∈ ms, V G d (G.push p m) false ≤ c) →
      fullRootMax G d p ms best (EInt.fin c) = (best, EInt.fin c) := by
  intro ms
  induction ms with
  | nil => intro best _; rfl
  | cons m ms ih =>
    intro best hub
    have h1 : ¬ EInt.fin c < EInt.fin (V G d (G.push p m) false) := by
      simp only [EInt.fin_lt_fin, not_lt]
      exact hub m (List.mem_cons_self m ms)
    show (if EInt.fin c < EInt.fin (V G d (G.push p m) false) then _ else _) = _
    rw [if_neg h1]
    exact ih best (fun m' hm' => hub m' (List.mem_cons_of_mem m hm'))

theorem fullRootMax_reaches (G : Game) (d : Nat) (p : G.Pos) (c : Int) :
    ∀ ms best alpha, (∃ m ∈ ms, V G d (G.push p m) false = c) →
      (∀ m ∈ ms, V G d (G.push p m) false ≤ c) → alpha < EInt.fin c →
      ∃ m', (fullRootMax G d p ms best alpha).1 = some m' ∧
        V G d (G.push p m') false = c ∧
        (fullRootMax G d p ms best alpha).2 = EInt.fin c := by
  intro ms
  induction ms with
  | nil => intro best alpha hex _ _; exact absurd hex (by simp)
  | cons m ms ih =>
    intro best alpha hex hub halpha
    have hfe : fullRootMax G d p (m :: ms) best alpha =
        (if alpha < EInt.fin (V G d (G.push p m) false) then
          fullRootMax G d p ms (some m) (EInt.fin (V G d (G.push p m) false))
        else fullRootMax G d p ms best alpha) := rfl
    rw [hfe]
    by_cases hav : alpha < EInt.fin (V G d (G.push p m) false)
    · rw [if_pos hav]
      by_cases hvc : V G d (G.push p m) false = c
      · rw [hvc]
        rw [fullRootMax_no_improve G d p c ms (some m)
          (fun m' hm' => hub m' (List.mem_cons_of_mem m hm'))]
        exact ⟨m, rfl, hvc, rfl⟩
      · have hex' : ∃ m' ∈ ms, V G d (G.push p m') false = c := by
          rcases hex with ⟨m0, hm0, hv0⟩
          rcases List.mem_cons.mp hm0 with h | h
          · subst h; exact absurd hv0 hvc
          · exact ⟨m0, h, hv0⟩
        have hlt : EInt.fin (V G d (G.push p m) false) < EInt.fin c := by
          simp only [EInt.fin_lt_fin]
          exact lt_of_le_of_ne (hub m (List.mem_cons_self m ms)) hvc
        exact ih (some m) _ hex'
          (fun m' hm' => hub m' (List.mem_cons_of_mem m hm')) hlt
    · rw [if_neg hav]
      have hex' : ∃ m' ∈ ms, V G d (G.push p m') false = c := by
        rcases hex with ⟨m0, hm0, hv0⟩
        rcases List.mem_cons.mp hm0 with h | h
        · subst h; rw [hv0] at hav; exact absurd halpha hav
        · exact ⟨m0, h, hv0⟩
      exact ih best alpha hex'
        (fun m' hm' => hub m' (List.mem_cons_of_mem m hm')) halpha

theorem fullRootMin_no_improve (G : Game) (d : Nat) (p : G.Pos) (c : Int) :
    ∀ ms best, (∀ m ∈ ms, c ≤ V G d (G.push p m) true) →
      fullRootMin G d p ms best (EInt.fin c) = (best, EInt.fin c) := by
  intro ms
  induction ms with
  | nil => intro best _; rfl
  | cons m ms ih =>
    intro best hlb
    have h1 : ¬ EInt.fin (V G d (G.push p m) true) < EInt.fin c := by
      simp only [EInt.fin_lt_fin, not_lt]
      exact hlb m (List.mem_cons_self m ms)
    show (if EInt.fin (V G d (G.push p m) true) < EInt.fin c then _ else _) = _
    rw [if_neg h1]
    exact ih best (fun m' hm' => hlb m' (List.mem_cons_of_mem m hm'))

theorem fullRootMin_reaches (G : Game) (d : Nat) (p : G.Pos) (c : Int) :
    ∀ ms best beta, (∃ m ∈ ms, V G d (G.push p m) true = c) →
      (∀ m ∈ ms, c ≤ V G d (G.push p m) true) → EInt.fin c < beta →
      ∃ m', (fullRootMin G d p ms best beta).1 = some m' ∧
        V G d (G.push p m') true = c ∧
        (fullRootMin G d p ms best beta).2 = EInt.fin c := by
  intro ms
  induction ms with
  | nil => intro best beta hex _ _; exact absurd hex (by simp)
  | cons m ms ih =>
    intro best beta hex hlb hbeta
    have hfe : fullRootMin G d p (m :: ms) best beta =
        (if EInt.fin (V G d (G.push p m) true) < beta then
          fullRootMin G d p ms (some m) (EInt.fin (V G d (G.push p m) true))
        else fullRootMin G d p ms best beta) := rfl
    rw [hfe]
    by_cases hav : EInt.fin (V G d (G.push p m) true) < beta
    · rw [if_pos hav]
      by_cases hvc : V G d (G.push p m) true = c
      · rw [hvc]
        rw [fullRootMin_no_improve G d p c ms (some m)
          (fun m' hm' => hlb m' (List.mem_cons_of_mem m hm'))]
        exact ⟨m, rfl, hvc, rfl⟩
      · have hex' : ∃ m' ∈ ms, V G d (G.push p m') true = c := by
          rcases hex with ⟨m0, hm0, hv0⟩
          rcases List.mem_cons.mp hm0 with h | h
          · subst h; exact absurd hv0 hvc
          · exact ⟨m0, h, hv0⟩
        have hlt : EInt.fin c < EInt.fin (V G d (G.push p m) true) := by
          simp only [EInt.fin_lt_fin]
          exact lt_of_le_of_ne (hlb m (List.mem_cons_self m ms))
            (fun h => hvc h.symm)
        exact ih (some m) _ hex'
          (fun m' hm' => hlb m' (List.mem_cons_of_mem m hm')) hlt
    · rw [if_neg hav]
      have hex' : ∃ m' ∈ ms, V G d (G.push p m') true = c := by
        rcases hex with ⟨m0, hm0, hv0⟩
        rcases List.mem_cons.mp hm0 with h | h
        · subst h; rw [hv0] at hav; exact absurd hbeta hav
        · exact ⟨m0, h, hv0⟩
      exact ih best beta hex'
        (fun m' hm' => hlb m' (List.mem_cons_of_mem m hm')) hbeta

theorem pres_getBestMove (G : Game) (p : G.Pos) (depth : Nat) (pc it : Bool)
    (T : Tables) : Pres T (getBestMove G p depth pc it T).2.1 := by
  have h0 : Pres T { T with transposition := [] } := Pres.rfl _
  rw [getBestMove]
  dsimp only
  split
  · refine h0.trans (pres_idGo _ ?_ depth 1 none _ [])
    intro d T' r hr
    have : r = (let s := searchMove G d pc p T'; (s.move, s.tables, s.trace)) := by
      cases hr; rfl
    subst this
    exact pres_searchMove G d pc p T'
  · exact h0.trans (pres_searchMove G depth pc p _)

/-- C5 (amended): with a mate-in-one available for the side to maximize
    (which is the side to move), the root search at any depth d+1 ≥ 1 returns
    the correctly oriented checkmate sentinel ±99999 as its final root bound,
    and the returned move's full-width minimax value equals that sentinel —
    but the returned move need not itself deliver mate in one, because the
    quiescence horizon can assign the same sentinel to a non-mating move (see
    the counterexample). -/
theorem claim5_mate_sentinel (G : Game) (p : G.Pos) (d : Nat) (pc : Bool)
    (T : Tables) (hturn : G.turn p = !pc)
    (hex : ∃ m, m ∈ G.legal p ∧ G.isCheckmate (G.push p m) = true) :
    ∃ m', (searchMove G (d + 1) pc p T).move = some m' ∧
      (if pc then
        (searchMove G (d + 1) pc p T).alphaOut = EInt.fin 99999 ∧
          V G d (G.push p m') false = 99999
      else
        (searchMove G (d + 1) pc p T).betaOut = EInt.fin (-99999) ∧
          V G d (G.push p m') true = -99999) := by
  obtain ⟨m0, hm0, hmate0⟩ := hex
  have hfull := searchMove_eq_full G (d + 1) pc p T
  cases pc with
  | true =>
    have hperm := orderMoves_perm G p T (G.legal p) true
    have hmem : m0 ∈ orderMoves G p T (G.legal p) true := hperm.mem_iff.mpr hm0
    have hturn0 : G.turn (G.push p m0) = true := by
      rw [G.turn_push p m0 hm0, hturn]
      rfl
    have hvm0 : V G d (G.push p m0) false = 99999 :=
      V_mate_white G _ hmate0 hturn0 d
    obtain ⟨m', hm', hvm', halpha⟩ := fullRootMax_reaches G d p 99999
      (orderMoves G p T (G.legal p) true) none EInt.bot
      ⟨m0, hmem, hvm0⟩ (fun m _ => (V_bound G d (G.push p m) false).2)
      (EInt.bot_lt_fin 99999)
    refine ⟨m', ?_, ?_⟩
    · rw [hfull.1]
      show (match (fullRootMax G d p (orderMoves G p T (G.legal p) true) none
          EInt.bot).1 with
        | some m => some m
        | none => (G.legal p).head?) = some m'
      rw [hm']
    · rw [if_pos rfl]
      refine ⟨?_, hvm'⟩
      rw [hfull.2.1]
      show (fullRootMax G d p (orderMoves G p T (G.legal p) true) none
        EInt.bot).2 = EInt.fin 99999
      exact halpha
  | false =>
    have hperm := orderMoves_perm G p T (G.legal p) false
    have hmem : m0 ∈ orderMoves G p T (G.legal p) false := hperm.mem_iff.mpr hm0
    have hturn0 : G.turn (G.push p m0) = false := by
      rw [G.turn_push p m0 hm0, hturn]
      rfl
    have hvm0 : V G d (G.push p m0) true = -99999 :=
      V_mate_black G _ hmate0 hturn0 d
    obtain ⟨m', hm', hvm', hbeta⟩ := fullRootMin_reaches G d p (-99999)
      (orderMoves G p T (G.legal p) false) none EInt.top
      ⟨m0, hmem, hvm0⟩ (fun m _ => (V_bound G d (G.push p m) true).1)
      (EInt.fin_lt_top (-99999))
    refine ⟨m', ?_, ?_⟩
    · rw [hfull.1]
      show (match (fullRootMin G d p (orderMoves G p T (G.legal p) false) none
          EInt.top).1 with
        | some m => some m
        | none => (G.legal p).head?) = some m'
      rw [hm']
    · rw [if_neg Bool.false_ne_true]
      refine ⟨?_, hvm'⟩
      rw [hfull.2.2]
      show (fullRootMin G d p (orderMoves G p T (G.legal p) false) none
        EInt.top).2 = EInt.fin (-99999)
      exact hbeta

/-- Behaviour of the iterative-deepening loop when iteration `k` fails after
    iterations 1..k-1 completed: the loop returns the move of the last fully
    completed iteration, or the initial move when the first iteration fails,
    regardless of what later iterations would have produced. -/
theorem idGo_error_run
    (step : Nat → Tables → Except Unit (Option MoveS × Tables × List Ev))
    (bs : Nat → Option MoveS) (Ts : Nat → Tables) (k : Nat)
    (hok : ∀ j, 1 ≤ j → j < k →
      ∃ r, step j (Ts j) = Except.ok r ∧ r.1 = bs j ∧ r.2.1 = Ts (j + 1))
    (herr : step k (Ts k) = Except.error ()) :
    ∀ (n cur : Nat), 1 ≤ cur → cur ≤ k → k ≤ cur + n →
      ∀ best acc, (idGo step cur n best (Ts cur) acc).1 =
        (if cur = k then best else bs (k - 1)) := by
  intro n
  induction n with
  | zero =>
    intro cur h1 h2 h3 best acc
    have hck : cur = k := by omega
    rw [if_pos hck]
    rfl
  | succ n ih =>
    intro cur h1 h2 h3 best acc
    by_cases hck : cur = k
    · subst hck
      rw [idGo, herr, if_pos rfl]
    · have hlt : cur < k := lt_of_le_of_ne h2 hck
      obtain ⟨r, hsr, hr1, hr2⟩ := hok cur h1 hlt
      rw [idGo, hsr]
      show (idGo step (cur + 1) n r.1 r.2.1 (acc ++ r.2.2)).1 =
        if cur = k then best else bs (k - 1)
      rw [hr2]
      have h4 := ih (cur + 1) (by omega) (by omega) (by omega) r.1 (acc ++ r.2.2)
      rw [h4, if_neg hck]
      by_cases hck1 : cur + 1 = k
      · rw [if_pos hck1, hr1]
        have hc : cur = k - 1 := by omega
        rw [hc]
      · rw [if_neg hck1]

/- A small concrete instance of the game interface, used for explicit
   counterexamples and witnesses. Position 0: Black to move, two legal moves.
   The first-listed quiet move leads to position 1 (White to move) where
   White's only move is a capture delivering checkmate (position 3); the
   second move delivers immediate checkmate (position 2). -/

def tgLegal : Nat → List MoveS := fun p =>
  if p = 0 then [⟨0, 8, none⟩, ⟨1, 9, none⟩]
  else if p = 1 then [⟨2, 10, none⟩]
  else []

def tgPush : Nat → MoveS → Nat := fun p m =>
  if p = 0 then (if m.fromSq = 0 then 1 else 2)
  else if p = 1 then 3
  else p

def tgTurn : Nat → Bool := fun p => decide (p = 1) || decide (p = 2)

def tgRank : Nat → Nat := fun p => if p = 0 then 3 else if p = 3 then 1 else 2

def TG : Game where
  Pos := Nat
  legal := tgLegal
  push := tgPush
  isCheckmate := fun p => decide (p = 2) || decide (p = 3)
  isStalemate := fun _ => false
  isInsufficient := fun _ => false
  isCapture := fun p m => decide (p = 1) && decide (m.fromSq = 2)
  pieceAt := fun _ _ => none
  turn := tgTurn
  rawEval := fun _ => 0
  rank := tgRank
  rank_capture := by
    intro p m h
    simp only [Bool.and_eq_true, decide_eq_true_eq] at h
    obtain ⟨hp, _⟩ := h
    subst hp
    show tgRank (tgPush 1 m) < tgRank 1
    exact Nat.one_lt_two
  mate_no_legal := by
    intro p h
    simp only [Bool.or_eq_true, decide_eq_true_eq] at h
    rcases h with h | h <;> subst h <;> rfl
  turn_push := by
    intro p m hm
    by_cases hp0 : p = 0
    · subst hp0
      have hmem : m = ⟨0, 8, none⟩ ∨ m = ⟨1, 9, none⟩ := by
        simpa [tgLegal] using hm
      rcases hmem with h | h <;> subst h <;> rfl
    · by_cases hp1 : p = 1
      · subst hp1
        have hmem : m = ⟨2, 10, none⟩ := by simpa [tgLegal] using hm
        subst hmem
        rfl
      · exfalso
        rw [show tgLegal p = [] from by simp [tgLegal, hp0, hp1]] at hm
        exact absurd hm (List.not_mem_nil m)
  rawEval_bound := fun _ => ⟨by norm_num, by norm_num⟩

instance instOfNatTGPos (n : Nat) : OfNat TG.Pos n := ⟨n⟩

/-- A board with Black to move, kings on their home squares e1 and e8, no
    other pieces, and no check: the concrete failing input for the
    evaluation's turn restoration. -/
def bC3 : BoardV :=
  { placement := fun s =>
      if s = 4 then some (true, 6)
      else if s = 60 then some (false, 6)
      else none,
    turn := false, checkW := false, checkB := false,
    legalW := 12, legalB := 9,
    checkmateF := false, stalemateF := false, insufficientF := false }

/-- The same position with White to move and the side to move in check. -/
def bC4 : BoardV := { bC3 with turn := true, checkW := true }

/-- The same position with White to move and no check. -/
def bC4nc : BoardV := { bC3 with turn := true, checkW := false }

/-- C4 (amended): whenever both king squares are present and truthy, the two
    `is_check()` adjustments of the king-safety term cancel exactly (the White
    block subtracts 10 and the Black block adds 10 on the same
    `board.is_check()` condition): the value is exactly the sum of the
    castled-square bonuses, independent of any check status — there is no net
    10-centipawn penalty against the side in check. -/
theorem claim4_king_safety (b : BoardV)
    (h1 : optTruthy (kingSq b true) = true)
    (h2 : optTruthy (kingSq b false) = true) :
    evaluateKingSafety b =
      (if inSquares2 (kingSq b true) 6 2 then 20 else 0) +
        (if inSquares2 (kingSq b false) 62 58 then -20 else 0) := by
  rw [evaluateKingSafety, if_pos h1, if_pos h2]
  by_cases hc : isCheckV b = true
  · rw [if_pos hc, if_pos hc]
    ring
  · rw [if_neg hc, if_neg hc]
    ring

/-- A concrete always-succeeding-then-failing iterative-deepening step, used
    to witness the driver's degradation behaviour. -/
def stepC9 : Nat → Tables → Except Unit (Option MoveS × Tables × List Ev) :=
  fun j T =>
    if j = 1 then Except.ok (some ⟨0, 8, none⟩, T, []) else Except.error ()

/-- C1: for every position, depth and side, the move and the final root bound
    (the score) produced by the pruned PVS alpha-beta root search
    `_search_move` equal those of the unpruned full-width minimax of the same
    tree (`fullSearchMove`, whose children are scored by the window-free value
    `V`); the same holds for `get_best_move` without iterative deepening.
    Pruning, the null-window probes with their re-search rule, and the
    killer/history move ordering never change the chosen move or its score. -/
theorem claim1_pruning_equivalence (G : Game) (d : Nat) (pc : Bool)
    (p : G.Pos) (T : Tables) :
    ((searchMove G d pc p T).move = (fullSearchMove G d pc p T).1 ∧
      (searchMove G d pc p T).alphaOut = (fullSearchMove G d pc p T).2.1 ∧
      (searchMove G d pc p T).betaOut = (fullSearchMove G d pc p T).2.2) ∧
    (getBestMove G p d pc false T).1 =
      (fullSearchMove G d pc p { T with transposition := [] }).1 := by
  refine ⟨searchMove_eq_full G d pc p T, ?_⟩
  rw [getBestMove]
  dsimp only
  rw [if_neg Bool.false_ne_true]
  show (searchMove G d pc p { T with transposition := [] }).move = _
  exact (searchMove_eq_full G d pc p _).1

/-- C2 (amended): `get_best_move` clears only the transposition table at the
    start of a request — the killer table, history table and node counter are
    carried over unchanged into the search; the full reset of all four pieces
    of per-search state happens one level up, in the
    `ChessEngine.make_engine_move` wrapper, whose search result is therefore
    independent of the prior table state. -/
theorem claim2_reset (G : Game) (p : G.Pos) (depth : Nat) (pc it : Bool)
    (T : Tables) :
    getBestMove G p depth pc it T =
        getBestMove G p depth pc it { T with transposition := [] } ∧
      ∀ T', makeEngineMoveSearch G p depth T =
        makeEngineMoveSearch G p depth T' :=
  ⟨rfl, fun _ => rfl⟩

/-- C2 (counterexample): `get_best_move` does not reset the node counter (nor
    the killer/history tables): starting the same request from a table state
    with `nodes_searched = 5` ends with a different node count than starting
    from the freshly initialised state, so the per-search mutable state is not
    all restored to its initial values before searching begins. -/
theorem claim2_counterexample :
    (getBestMove TG 0 1 true true { initTables with nodes := 5 }).2.1.nodes ≠
      (getBestMove TG 0 1 true true initTables).2.1.nodes := by
  decide

/-- C3 (code bug): the evaluation is not side-effect-free on the side-to-move
    field. `_evaluate_mobility` ends by assigning `board.turn = chess.WHITE`
    unconditionally (the comment says "Reset to original turn" but the code
    hard-codes White), so on the board `bC3` with Black to move, both
    `static_eval.evaluate_board` and the engine's `evaluate_board` return with
    the side to move changed to White; the final turn is `True` for every
    input board. -/
theorem claim3_mobility_turn_bug :
    bC3.turn = false ∧
      (evaluateBoardSt bC3).2.turn = true ∧
      (NVevaluateBoard bC3 false).2.turn = true ∧
      (∀ b : BoardV, (evaluateMobility b).2.turn = true) :=
  ⟨rfl, rfl, rfl, fun _ => rfl⟩

/-- C4 (counterexample): on the board `bC4` (kings on e1/e8, White to move and
    in check) the king-safety term equals its value on the identical board
    `bC4nc` without the check — the side in check does not score 10 centipawns
    worse, because the −10 in the White block and the +10 in the Black block
    fire on the same `board.is_check()` condition and cancel. -/
theorem claim4_counterexample :
    isCheckV bC4 = true ∧ isCheckV bC4nc = false ∧
      evaluateKingSafety bC4 = evaluateKingSafety bC4nc ∧
      evaluateKingSafety bC4 ≠ evaluateKingSafety bC4nc - 10 := by
  decide

/-- Witness for C4's amended theorem at the concrete in-check board `bC4`. -/
theorem claim4_witness :
    optTruthy (kingSq bC4 true) = true ∧
      optTruthy (kingSq bC4 false) = true ∧
      evaluateKingSafety bC4 =
        (if inSquares2 (kingSq bC4 true) 6 2 then 20 else 0) +
          (if inSquares2 (kingSq bC4 false) 62 58 then -20 else 0) :=
  ⟨by decide, by decide, claim4_king_safety bC4 (by decide) (by decide)⟩

/-- C5 (counterexample): in the game gadget `TG`, Black (the maximizer) has
    the immediate mating move `⟨1,9⟩`, yet the depth-1 root search returns the
    non-mating move `⟨0,8⟩`: the quiescence horizon assigns the position after
    `⟨0,8⟩` the same +99999 sentinel, ties are not broken in favour of actual
    mate, and move ordering puts `⟨0,8⟩` first. -/
theorem claim5_counterexample :
    (searchMove TG 1 true 0 initTables).move = some ⟨0, 8, none⟩ ∧
      TG.isCheckmate (tgPush 0 ⟨0, 8, none⟩) = false ∧
      (⟨1, 9, none⟩ : MoveS) ∈ tgLegal 0 ∧
      TG.isCheckmate (tgPush 0 ⟨1, 9, none⟩) = true := by
  decide

/-- Witness for C5's amended theorem on the gadget `TG` at depth 1. -/
theorem claim5_witness :
    TG.turn 0 = !true ∧
      ∃ m', (searchMove TG (0 + 1) true 0 initTables).move = some m' ∧
        (if true then
          (searchMove TG (0 + 1) true 0 initTables).alphaOut =
              EInt.fin 99999 ∧
            V TG 0 (TG.push 0 m') false = 99999
        else
          (searchMove TG (0 + 1) true 0 initTables).betaOut =
              EInt.fin (-99999) ∧
            V TG 0 (TG.push 0 m') true = -99999) :=
  ⟨by decide,
    claim5_mate_sentinel TG 0 0 true initTables (by decide)
      ⟨⟨1, 9, none⟩, by decide, by decide⟩⟩

/-- C6: for every quiescence call with alpha < beta the returned value is
    exactly alpha-beta-clamped true quiescence value, hence always inside
    [alpha, beta]; it is exactly beta when the stand-pat evaluation already
    reaches beta, and otherwise it is the running alpha — the maximum of the
    original alpha and the clamped quiescence value of the position. -/
theorem claim6_quiescence_window (G : Game) (p : G.Pos) (alpha beta : EInt)
    (T : Tables) (h : alpha < beta) :
    (quiescence G p alpha beta T).val =
        max alpha (min beta (EInt.fin (trueQ G p))) ∧
      alpha ≤ (quiescence G p alpha beta T).val ∧
      (quiescence G p alpha beta T).val ≤ beta ∧
      (beta ≤ EInt.fin (engineEval G p) →
        (quiescence G p alpha beta T).val = beta) := by
  have hv := quiescence_val G p alpha beta T h
  refine ⟨hv, ?_, ?_, ?_⟩
  · rw [hv]
    exact le_max_left _ _
  · rw [hv]
    exact max_le h.le (min_le_left _ _)
  · intro hb
    have h2 : EInt.fin (engineEval G p) ≤ EInt.fin (trueQ G p) :=
      (EInt.le_def _ _).mpr (engineEval_le_trueQ G p)
    rw [hv, min_eq_left (le_trans hb h2), max_eq_right h.le]

/-- Witness for C6 on the gadget `TG` with the concrete window (-5, 7). -/
theorem claim6_witness :
    (EInt.fin (-5) : EInt) < EInt.fin 7 ∧
      ((quiescence TG 0 (EInt.fin (-5)) (EInt.fin 7) initTables).val =
          max (EInt.fin (-5)) (min (EInt.fin 7) (EInt.fin (trueQ TG 0))) ∧
        EInt.fin (-5) ≤
          (quiescence TG 0 (EInt.fin (-5)) (EInt.fin 7) initTables).val ∧
        (quiescence TG 0 (EInt.fin (-5)) (EInt.fin 7) initTables).val ≤
          EInt.fin 7 ∧
        (EInt.fin 7 ≤ EInt.fin (engineEval TG 0) →
          (quiescence TG 0 (EInt.fin (-5)) (EInt.fin 7) initTables).val =
            EInt.fin 7)) :=
  ⟨by decide,
    claim6_quiescence_window TG 0 (EInt.fin (-5)) (EInt.fin 7) initTables
      (by decide)⟩

/-- C7: the event trace of every top-level best-move request is a balanced
    Dyck word of pushes and pops: every `board.push` is matched by exactly one
    later `board.pop` on every exit path (the push and pop counts agree), and
    replaying the whole trace on the board machine returns the caller's
    position and stack unchanged — the position is restored exactly. -/
theorem claim7_push_pop_balance (G : Game) (p : G.Pos) (depth : Nat)
    (pc it : Bool) (T : Tables) :
    Bal (getBestMove G p depth pc it T).2.2 ∧
      countPush (getBestMove G p depth pc it T).2.2 =
        countPop (getBestMove G p depth pc it T).2.2 ∧
      ∀ stk, runB G p stk (getBestMove G p depth pc it T).2.2 = (p, stk) := by
  have hb := getBestMove_trace_bal G p depth pc it T
  exact ⟨hb, hb.countPush_eq_countPop, fun stk => hb.runB_eq G p stk⟩

/-- C8: starting from a killer table satisfying the invariant, the whole
    search preserves it (at most 2 entries, no duplicate move) and leaves
    every history entry monotonically non-decreasing; moreover each cutoff
    update adds exactly depth² to the cutting move's history entry and leaves
    the others unchanged, and each killer update preserves the invariant. -/
theorem claim8_table_invariants (G : Game) (p : G.Pos) (depth : Nat)
    (pc it : Bool) (T : Tables) (h : KillerInv T.killers) :
    (KillerInv (getBestMove G p depth pc it T).2.1.killers ∧
      ∀ k, dictGet T.history k ≤
        dictGet (getBestMove G p depth pc it T).2.1.history k) ∧
    (∀ (T' : Tables) (m : MoveS) (dep : Nat),
      dictGet (updateHistory T' m dep).history (m.fromSq, m.toSq) =
          dictGet T'.history (m.fromSq, m.toSq) + (dep : Int) * (dep : Int) ∧
        ∀ k, k ≠ (m.fromSq, m.toSq) →
          dictGet (updateHistory T' m dep).history k =
            dictGet T'.history k) ∧
    (∀ (T' : Tables) (m : MoveS), KillerInv T'.killers →
      KillerInv (updateKiller T' m).killers) := by
  have hp := pres_getBestMove G p depth pc it T
  exact ⟨⟨hp.1 h, hp.2⟩, fun T' m dep => updateHistory_get T' m dep,
    fun T' m h' => killerInv_updateKiller m h'⟩

/-- Witness for C8 on the gadget `TG` from the initial tables. -/
theorem claim8_witness :
    KillerInv initTables.killers ∧
      KillerInv (getBestMove TG 0 1 true true initTables).2.1.killers :=
  ⟨by decide,
    ((claim8_table_invariants TG 0 1 true true initTables (by decide)).1).1⟩

/-- C9: when iterative deepening is enabled and the per-depth step succeeds
    at depths 1..k-1 but fails at depth k ≤ D, the driver loop stops and
    returns the best move recorded by the last fully completed iteration
    (depth k-1), or the initial `None` when the first iteration fails — never
    a move from the failed iteration and never a propagated error; and
    `get_best_move` with iterative deepening is exactly this loop over the
    per-depth `_search_move` step, starting from depth 1 after clearing the
    transposition table. -/
theorem claim9_driver_degrades :
    (∀ (step : Nat → Tables → Except Unit (Option MoveS × Tables × List Ev))
        (bs : Nat → Option MoveS) (Ts : Nat → Tables) (k D : Nat),
      1 ≤ k → k ≤ D →
      (∀ j, 1 ≤ j → j < k →
        ∃ r, step j (Ts j) = Except.ok r ∧ r.1 = bs j ∧ r.2.1 = Ts (j + 1)) →
      step k (Ts k) = Except.error () →
      (idGo step 1 D none (Ts 1) []).1 =
        (if 1 = k then none else bs (k - 1))) ∧
    (∀ (G : Game) (p : G.Pos) (depth : Nat) (pc : Bool) (T : Tables),
      getBestMove G p depth pc true T =
        idGo
          (fun d T' =>
            Except.ok
              (let r := searchMove G d pc p T'
               (r.move, r.tables, r.trace)))
          1 depth none { T with transposition := [] } []) := by
  constructor
  · intro step bs Ts k D h1 h2 hok herr
    exact idGo_error_run step bs Ts k hok herr D 1 (by omega) h1 (by omega)
      none []
  · intro G p depth pc T
    rfl

/-- Witness for C9 with a concrete step failing at depth 2 of 3. -/
theorem claim9_witness :
    (idGo stepC9 1 3 none initTables []).1 =
      (if 1 = 2 then none else some (⟨0, 8, none⟩ : MoveS)) :=
  (claim9_driver_degrades).1 stepC9 (fun _ => some ⟨0, 8, none⟩)
    (fun _ => initTables) 2 3 (by omega) (by omega)
    (fun j hj1 hj2 =>
      ⟨(some ⟨0, 8, none⟩, initTables, []), by
        have hj : j = 1 := by omega
        subst hj
        exact ⟨rfl, rfl, rfl⟩⟩)
    rfl

/-- C10: quiescence search terminates with recursion depth bounded by the
    capturable-piece count: running the fuel-indexed quiescence with any fuel
    exceeding the position's rank (its number of capturable pieces) yields the
    same result, and the engine's `_quiescence` is exactly the fuel run at
    rank + 1 — the recursion is well-founded on the decreasing piece count. -/
theorem claim10_quiescence_fuel (G : Game) (p : G.Pos) (n : Nat)
    (alpha beta : EInt) (T : Tables) (h : G.rank p < n) :
    qF G n p alpha beta T = quiescence G p alpha beta T ∧
      quiescence G p alpha beta T = qF G (G.rank p + 1) p alpha beta T :=
  ⟨qF_irrel G n p alpha beta T h, rfl⟩

/-- Witness for C10 on the gadget `TG` with generous fuel. -/
theorem claim10_witness :
    TG.rank 1 < 5 ∧
      (qF TG 5 1 (EInt.fin 0) (EInt.fin 1) initTables =
          quiescence TG 1 (EInt.fin 0) (EInt.fin 1) initTables ∧
        quiescence TG 1 (EInt.fin 0) (EInt.fin 1) initTables =
          qF TG (TG.rank 1 + 1) 1 (EInt.fin 0) (EInt.fin 1) initTables) :=
  ⟨by decide,
    claim10_quiescence_fuel TG 1 5 (EInt.fin 0) (EInt.fin 1) initTables
      (by decide)⟩

end NV
